import Mathlib

/-!
Verification of the `mula` request-coalescing library.

The development shallowly embeds the two source files of the repository:

* `src/src/lib.rs` — the coordinator `Mula<T, O, F>` (a mutex-guarded
  `HashMap` from keys to `Bus`es plus the `work` closure) and the per-key
  `Bus` (an spmc channel, plus a vector of weak references to every
  receiver handle handed out so far).
* `src/mula_proc_macro/src/lib.rs` — the `#[mula]` attribute macro whose
  generated wrapper lazily creates one coordinator in a `OnceCell` and
  forwards every call through `Mula::subscribe_to`.

The `Bus` operations (`new`, `add_receiver`, `broadcast`) are pure and are
embedded directly as Lean functions.  The concurrent behaviour of
`Mula::subscribe_to` and of the spawned background execution is embedded as
a small-step transition relation `Step` over a system state consisting of
the registry (`groups`), the registry mutex (`lock`, recording the holding
thread) and a pool of threads, each either a caller running
`subscribe_to` or a spawned execution.  A panic of the `work` closure is
modelled by `work` returning `none`.
-/

namespace MulaVerify

/-! ### The `Bus` (src/src/lib.rs lines 171-201)

`Bus` holds the spmc channel (modelled by its queue of pending messages,
FIFO), and `weak_receivers`, the strong count of each receiver handle
issued by `add_receiver`, in order of issuance (a `Weak` whose referent was
dropped has strong count `0`; the entry itself is never removed).
`broadcastDone` is a ghost flag, set by the delivery pass only, used to
state temporal claims; it affects no behaviour. -/

structure Bus (V : Type) where
  queue : List V
  weak_receivers : List Nat
  broadcastDone : Bool
deriving DecidableEq, Repr

namespace Bus

variable {V : Type}

/-- Constructor `Bus::new` (line 178): fresh channel, no receivers issued yet. -/
def new (V : Type) : Bus V := ⟨[], [], false⟩

/-- Method `Bus::add_receiver` (lines 187-191): clone the template receiver into a
fresh `Arc` (strong count 1), push a weak reference to it, return the
handle.  The returned `Nat` is the handle's index in `weak_receivers`. -/
def add_receiver (b : Bus V) : Bus V × Nat :=
  ({ b with weak_receivers := b.weak_receivers ++ [1] }, b.weak_receivers.length)

/-- Number of issued receiver handles whose strong count is positive. -/
def liveCount (b : Bus V) : Nat :=
  (b.weak_receivers.filter (fun r => 0 < r)).length

/-- Method `Bus::broadcast` (lines 193-200): iterate `weak_receivers`; for every
handle still live (`strong_count() > 0`) send one clone of `msg` into the
channel. -/
def broadcast (b : Bus V) (msg : V) : Bus V :=
  { b with
    queue := b.weak_receivers.foldl (fun q r => if 0 < r then q ++ [msg] else q) b.queue }

/-- Number of receiver clones currently connected to the spmc channel: the
`receiver` template field the `Bus` itself owns (line 173) plus every live
issued handle.  `spmc::Sender::send` fails exactly when this is `0`. -/
def connectedCount (b : Bus V) : Nat := 1 + b.liveCount

end Bus

/-- Channel send `spmc::Sender::send` (used at line 197): enqueues the message, or fails
(returns `none`, on which the source calls `.unwrap()`) when no receiver
clone is connected to the channel any more. -/
def trySend {V : Type} (connected : Nat) (q : List V) (msg : V) : Option (List V) :=
  if connected = 0 then none else some (q ++ [msg])

/-- The delivery-pass loop of `Bus::broadcast` (lines 195-199) with the
fallibility of `send` made explicit: skip dead handles, `trySend` one clone
of `msg` per live handle, propagating a send failure. -/
def broadcastLoop {V : Type} (connected : Nat) (msg : V) :
    List Nat → List V → Option (List V)
  | [], q => some q
  | r :: rs, q =>
      if 0 < r then
        (trySend connected q msg).bind (broadcastLoop connected msg rs)
      else broadcastLoop connected msg rs q

/-- The broadcast loop run with explicit send failures. -/
def Bus.broadcastChecked {V : Type} (b : Bus V) (msg : V) : Option (List V) :=
  broadcastLoop b.connectedCount msg b.weak_receivers b.queue

/-! Helper lemmas about the delivery-pass loop. -/

theorem broadcastLoop_pos {V : Type} (msg : V) (connected : Nat)
    (hc : 0 < connected) :
    ∀ (rs : List Nat) (q : List V),
      broadcastLoop connected msg rs q =
        some (q ++ List.replicate ((rs.filter (fun r => 0 < r)).length) msg) := by
  intro rs
  induction rs with
  | nil => intro q; simp [broadcastLoop]
  | cons r rs ih =>
      intro q
      by_cases hr : 0 < r
      · have hsend : trySend connected q msg = some (q ++ [msg]) := by
          unfold trySend
          rw [if_neg (Nat.pos_iff_ne_zero.mp hc)]
        simp only [broadcastLoop, if_pos hr, hsend, ih, List.filter_cons,
          decide_eq_true hr, List.length_cons, ite_true, Option.some_bind,
          List.append_assoc, List.singleton_append, ← List.replicate_succ]
      · simp only [broadcastLoop, if_neg hr, ih, List.filter_cons]
        rw [decide_eq_false hr]
        simp

/-! ### System state for `Mula::subscribe_to` (src/src/lib.rs lines 137-166)

A caller thread runs `Mula::subscribe_to(mula, input)`.  Its phases follow
the source line by line:

* `start`    — about to execute `mula.map.lock()` (line 142);
* `locked`   — holds the registry mutex, about to run
               `map.entry(input).or_insert_with(...)` (lines 143-153);
* `gotBus`   — `or_insert_with` returned the group (either pre-existing, or
               freshly inserted after spawning the background execution);
* `registered` — `bus.add_receiver()` returned handle `rid` (line 156),
               mutex still held;
* `waiting`  — after `drop(bus); drop(map)` (lines 161-162): mutex
               released, blocked in `receiver.recv()` (line 165);
* `finished` — `recv()` returned `v`; `subscribe_to` returns `v`, dropping
               the receiver handle (its strong count falls to 0).

An execution thread is the closure spawned at lines 145-151:

* `running`   — invoking `(thread_mula.work)(input)` (line 147);
* `awaitLock` — `work` returned `v`, blocked in `thread_mula.map.lock()`
                (line 148);
* `publishing` — holds the mutex, about to run
                `map.get_mut(&key).unwrap()` then `bus.broadcast(result)`
                (lines 149-150);
* `finishedE` — broadcast done, mutex released, thread exits;
* `panickedWork` — `work` panicked (modelled by `work key = none`): the
                thread unwinds, never publishing;
* `lookupFailed` — `map.get_mut(&key)` returned `None` and the `.unwrap()`
                at line 149 panicked.  (Proved unreachable.) -/

inductive CallerPhase (K V : Type) : Type where
  | start : K → CallerPhase K V
  | locked : K → CallerPhase K V
  | gotBus : K → CallerPhase K V
  | registered : K → Nat → CallerPhase K V
  | waiting : K → Nat → CallerPhase K V
  | finished : K → V → CallerPhase K V
deriving DecidableEq, Repr

inductive ExecPhase (K V : Type) : Type where
  | running : K → ExecPhase K V
  | awaitLock : K → V → ExecPhase K V
  | publishing : K → V → ExecPhase K V
  | finishedE : K → ExecPhase K V
  | panickedWork : K → ExecPhase K V
  | lookupFailed : K → ExecPhase K V
deriving DecidableEq, Repr

inductive Thread (K V : Type) : Type where
  | caller : CallerPhase K V → Thread K V
  | exec : ExecPhase K V → Thread K V
deriving DecidableEq, Repr

/-- The key an execution thread was spawned for. -/
def ExecPhase.key {K V : Type} : ExecPhase K V → K
  | .running k => k
  | .awaitLock k _ => k
  | .publishing k _ => k
  | .finishedE k => k
  | .panickedWork k => k
  | .lookupFailed k => k

/-- Whether a thread currently holds the registry mutex.  A caller holds it
from `map.lock()` (line 142) until `drop(map)` (line 162); an execution
holds it from `map.lock()` (line 148) until its guard is dropped after
`broadcast` (end of the spawned closure, line 151). -/
def Thread.holdsLock {K V : Type} : Thread K V → Bool
  | .caller (.locked _) => true
  | .caller (.gotBus _) => true
  | .caller (.registered _ _) => true
  | .exec (.publishing _ _) => true
  | _ => false

/-- The whole system: the registry (`map: Mutex<HashMap<T, Bus<O>>>`,
kept as an association list in insertion order), the mutex holder, and the
thread pool (index = thread id; spawning appends). -/
structure SysState (K V : Type) : Type where
  groups : List (K × Bus V)
  lock : Option Nat
  threads : List (Thread K V)
deriving DecidableEq, Repr

/-- The key set of the registry. -/
def SysState.keys {K V : Type} (st : SysState K V) : List K :=
  st.groups.map Prod.fst

/-- One interleaving step of the system.  `work k = none` models a panic of
the `work` closure on input `k`. -/
inductive Step {K V : Type} (work : K → Option V) :
    SysState K V → SysState K V → Prop where
  /-- Line 142: `let mut map = mula.map.lock();`. -/
  | acquire (st : SysState K V) (tid : Nat) (k : K)
      (ht : st.threads[tid]? = some (.caller (.start k)))
      (hl : st.lock = none) :
      Step work st
        { st with lock := some tid,
                  threads := st.threads.set tid (.caller (.locked k)) }
  /-- Lines 143-153, key already present: `map.entry(input)` finds the
  existing `Bus`; `or_insert_with` does not run its closure. -/
  | entryExisting (st : SysState K V) (tid : Nat) (k : K)
      (ht : st.threads[tid]? = some (.caller (.locked k)))
      (hl : st.lock = some tid)
      (hk : k ∈ st.keys) :
      Step work st
        { st with threads := st.threads.set tid (.caller (.gotBus k)) }
  /-- Lines 143-153, key absent: `or_insert_with` runs its closure, which
  spawns the background execution (lines 145-151) and returns `Bus::new()`,
  which `entry` inserts — all while the mutex is held. -/
  | entryInsert (st : SysState K V) (tid : Nat) (k : K)
      (ht : st.threads[tid]? = some (.caller (.locked k)))
      (hl : st.lock = some tid)
      (hk : k ∉ st.keys) :
      Step work st
        { st with groups := st.groups ++ [(k, Bus.new V)],
                  threads := (st.threads.set tid (.caller (.gotBus k)))
                               ++ [.exec (.running k)] }
  /-- Line 156: `let receiver = bus.add_receiver();`, mutex still held. -/
  | addReceiver (st : SysState K V) (tid : Nat) (k : K) (gi : Nat) (g : K × Bus V)
      (ht : st.threads[tid]? = some (.caller (.gotBus k)))
      (hl : st.lock = some tid)
      (hg : st.groups[gi]? = some g)
      (hgk : g.1 = k) :
      Step work st
        { st with groups := st.groups.set gi (g.1, (g.2.add_receiver).1),
                  threads := st.threads.set tid
                    (.caller (.registered k (g.2.add_receiver).2)) }
  /-- Lines 161-162: `drop(bus); drop(map);` — the mutex is released before
  the thread blocks in `recv()`. -/
  | releaseLock (st : SysState K V) (tid : Nat) (k : K) (rid : Nat)
      (ht : st.threads[tid]? = some (.caller (.registered k rid)))
      (hl : st.lock = some tid) :
      Step work st
        { st with lock := none,
                  threads := st.threads.set tid (.caller (.waiting k rid)) }
  /-- Line 165: `receiver.recv().unwrap()` returns the head of the shared
  spmc queue (any blocked consumer of the channel may take any pending
  item); `subscribe_to` returns, dropping the receiver handle. -/
  | recvMsg (st : SysState K V) (tid : Nat) (k : K) (rid : Nat)
      (gi : Nat) (g : K × Bus V) (v : V) (rest : List V)
      (ht : st.threads[tid]? = some (.caller (.waiting k rid)))
      (hg : st.groups[gi]? = some g)
      (hgk : g.1 = k)
      (hq : g.2.queue = v :: rest) :
      Step work st
        { st with groups := st.groups.set gi
                    (g.1, { g.2 with queue := rest,
                                     weak_receivers := g.2.weak_receivers.set rid 0 }),
                  threads := st.threads.set tid (.caller (.finished k v)) }
  /-- Line 147: `let result = (thread_mula.work)(input);` returns. -/
  | workOk (st : SysState K V) (tid : Nat) (k : K) (v : V)
      (ht : st.threads[tid]? = some (.exec (.running k)))
      (hw : work k = some v) :
      Step work st
        { st with threads := st.threads.set tid (.exec (.awaitLock k v)) }
  /-- Line 147: the `work` closure panics; the spawned thread unwinds
  without ever touching the registry again. -/
  | workPanic (st : SysState K V) (tid : Nat) (k : K)
      (ht : st.threads[tid]? = some (.exec (.running k)))
      (hw : work k = none) :
      Step work st
        { st with threads := st.threads.set tid (.exec (.panickedWork k)) }
  /-- Line 148: `let mut map = thread_mula.map.lock();`. -/
  | execAcquire (st : SysState K V) (tid : Nat) (k : K) (v : V)
      (ht : st.threads[tid]? = some (.exec (.awaitLock k v)))
      (hl : st.lock = none) :
      Step work st
        { st with lock := some tid,
                  threads := st.threads.set tid (.exec (.publishing k v)) }
  /-- Lines 149-151: `map.get_mut(&key).unwrap()` finds the group;
  `bus.broadcast(result)` runs the delivery pass; the guard is dropped as
  the closure ends. -/
  | publish (st : SysState K V) (tid : Nat) (k : K) (v : V)
      (gi : Nat) (g : K × Bus V)
      (ht : st.threads[tid]? = some (.exec (.publishing k v)))
      (hl : st.lock = some tid)
      (hg : st.groups[gi]? = some g)
      (hgk : g.1 = k) :
      Step work st
        { st with lock := none,
                  groups := st.groups.set gi
                    (g.1, { g.2.broadcast v with broadcastDone := true }),
                  threads := st.threads.set tid (.exec (.finishedE k)) }
  /-- Lines 149: `map.get_mut(&key)` returns `None`, so the `.unwrap()`
  panics; the unwinding thread drops the mutex guard.  (Unreachable.) -/
  | publishMissing (st : SysState K V) (tid : Nat) (k : K) (v : V)
      (ht : st.threads[tid]? = some (.exec (.publishing k v)))
      (hl : st.lock = some tid)
      (hk : k ∉ st.keys) :
      Step work st
        { st with lock := none,
                  threads := st.threads.set tid (.exec (.lookupFailed k)) }

/-- Initial state: an empty registry (`Mula::new`, lines 105-110), the
mutex free, and one caller thread per requested key, each about to enter
`subscribe_to`. -/
def initState (K V : Type) (reqs : List K) : SysState K V :=
  ⟨[], none, reqs.map (fun k => .caller (.start k))⟩

/-- States reachable from a set of initial requests. -/
def Reachable {K V : Type} (work : K → Option V) (reqs : List K)
    (st : SysState K V) : Prop :=
  Relation.ReflTransGen (Step work) (initState K V reqs) st

/-! ### List access helpers -/

theorem getElem?_set_cases {α : Type} {l : List α} {i j : Nat} {a x : α}
    (h : (l.set i a)[j]? = some x) :
    (i = j ∧ x = a ∧ j < l.length) ∨ (i ≠ j ∧ l[j]? = some x) := by
  by_cases hij : i = j
  · subst hij
    have hlen : i < l.length := by
      by_contra hge
      rw [List.set_eq_of_length_le (Nat.le_of_not_lt hge)] at h
      exact hge (List.getElem?_eq_some.mp h).1
    rw [List.getElem?_set_self hlen] at h
    exact Or.inl ⟨rfl, (Option.some_inj.mp h).symm, hlen⟩
  · rw [List.getElem?_set_ne hij] at h
    exact Or.inr ⟨hij, h⟩

theorem getElem?_concat_cases {α : Type} {l : List α} {a x : α} {j : Nat}
    (h : (l ++ [a])[j]? = some x) :
    l[j]? = some x ∨ (j = l.length ∧ x = a) := by
  by_cases hj : j < l.length
  · rw [List.getElem?_append_left hj] at h
    exact Or.inl h
  · have hle : l.length ≤ j := Nat.le_of_not_lt hj
    rw [List.getElem?_append_right hle] at h
    have hlt : j - l.length < 1 := by
      have := (List.getElem?_eq_some.mp h).1
      simpa using this
    have hj0 : j - l.length = 0 := Nat.lt_one_iff.mp hlt
    have hjl : j = l.length := by omega
    rw [hj0] at h
    simp only [List.getElem?_cons_zero, Option.some_inj] at h
    exact Or.inr ⟨hjl, h.symm⟩

theorem set_self_of_getElem? {α : Type} {l : List α} {i : Nat} {a : α}
    (h : l[i]? = some a) : l.set i a = l := by
  induction l generalizing i with
  | nil => simp at h
  | cons x xs ih =>
      cases i with
      | zero => simp_all
      | succ n =>
          simp only [List.getElem?_cons_succ] at h
          simp [List.set, ih h]

theorem length_lt_of_getElem? {α : Type} {l : List α} {i : Nat} {a : α}
    (h : l[i]? = some a) : i < l.length :=
  (List.getElem?_eq_some.mp h).1

/-- Setting a group's bus leaves the registry's key list unchanged. -/
theorem keys_set_bus {K V : Type} {st : SysState K V} {gi : Nat}
    {g : K × Bus V} (b : Bus V) (hg : st.groups[gi]? = some g) :
    (SysState.keys { st with groups := st.groups.set gi (g.1, b) }) = st.keys := by
  show (st.groups.set gi (g.1, b)).map Prod.fst = st.groups.map Prod.fst
  rw [List.map_set]
  exact set_self_of_getElem? (by rw [List.getElem?_map, hg]; rfl)

/-- The queue after a delivery pass: the old queue followed by one copy of
the message per live receiver handle. -/
theorem broadcast_queue_eq {V : Type} (b : Bus V) (msg : V) :
    (b.broadcast msg).queue = b.queue ++ List.replicate b.liveCount msg := by
  show b.weak_receivers.foldl (fun q r => if 0 < r then q ++ [msg] else q) b.queue
      = b.queue ++ List.replicate b.liveCount msg
  unfold Bus.liveCount
  generalize b.weak_receivers = rs
  generalize b.queue = q
  induction rs generalizing q with
  | nil => simp
  | cons r rs ih =>
      by_cases hr : 0 < r
      · simp only [List.foldl_cons, if_pos hr, ih, List.filter_cons,
          decide_eq_true hr, ite_true, List.length_cons, List.append_assoc,
          List.singleton_append, ← List.replicate_succ]
      · simp only [List.foldl_cons, if_neg hr, ih, List.filter_cons]
        rw [decide_eq_false hr]
        simp

theorem mem_broadcast_queue {V : Type} {b : Bus V} {msg v : V}
    (h : v ∈ (b.broadcast msg).queue) : v ∈ b.queue ∨ v = msg := by
  rw [broadcast_queue_eq] at h
  rcases List.mem_append.mp h with h' | h'
  · exact Or.inl h'
  · exact Or.inr (List.eq_of_mem_replicate h')

/-! ### The system invariant -/

/-- Invariant of every reachable state. -/
structure Inv {K V : Type} (work : K → Option V) (st : SysState K V) : Prop where
  /-- Registry keys are pairwise distinct (it is a `HashMap`). -/
  nodup : st.keys.Nodup
  /-- Only the thread recorded in `lock` holds the registry mutex. -/
  holder : ∀ (i : Nat) (t : Thread K V), st.threads[i]? = some t →
    t.holdsLock = true → st.lock = some i
  /-- The thread recorded in `lock` is in a mutex-holding phase. -/
  lockInv : ∀ (i : Nat), st.lock = some i →
    ∃ t, st.threads[i]? = some t ∧ t.holdsLock = true
  /-- Every spawned execution's key has a group in the registry. -/
  execMem : ∀ (i : Nat) (p : ExecPhase K V),
    st.threads[i]? = some (.exec p) → p.key ∈ st.keys
  /-- At most one execution thread exists per key. -/
  execUniq : ∀ (i j : Nat) (p q : ExecPhase K V),
    st.threads[i]? = some (.exec p) →
    st.threads[j]? = some (.exec q) → p.key = q.key → i = j
  /-- A post-`work` execution carries exactly `work` of its key. -/
  awaitWork : ∀ (i : Nat) (k : K) (v : V),
    st.threads[i]? = some (.exec (.awaitLock k v)) → work k = some v
  /-- A publishing execution carries exactly `work` of its key. -/
  pubWork : ∀ (i : Nat) (k : K) (v : V),
    st.threads[i]? = some (.exec (.publishing k v)) → work k = some v
  /-- A finished execution had a successful `work`. -/
  finEWork : ∀ (i : Nat) (k : K),
    st.threads[i]? = some (.exec (.finishedE k)) → ∃ v, work k = some v
  /-- Every message in a group's channel is the `work` output of its key. -/
  queueWork : ∀ (gi : Nat) (g : K × Bus V), st.groups[gi]? = some g →
    ∀ v ∈ g.2.queue, work g.1 = some v
  /-- Every value returned by `subscribe_to` is the `work` output of the
  key it was called with. -/
  finWork : ∀ (i : Nat) (k : K) (v : V),
    st.threads[i]? = some (.caller (.finished k v)) → work k = some v
  /-- A completed delivery pass belongs to a finished execution. -/
  doneFin : ∀ (gi : Nat) (g : K × Bus V), st.groups[gi]? = some g →
    g.2.broadcastDone = true →
    ∃ i : Nat, st.threads[i]? = some (.exec (.finishedE g.1))
  /-- Before the delivery pass, a group's channel is empty. -/
  notDoneNoQueue : ∀ (gi : Nat) (g : K × Bus V), st.groups[gi]? = some g →
    g.2.broadcastDone = false → g.2.queue = []
  /-- The `unwrap` at line 149 never panics. -/
  noFail : ∀ (i : Nat) (k : K),
    ¬ st.threads[i]? = some (.exec (.lookupFailed k))

theorem inv_init {K V : Type} (work : K → Option V) (reqs : List K) :
    Inv work (initState K V reqs) := by
  have hth : ∀ (i : Nat) (t : Thread K V),
      (initState K V reqs).threads[i]? = some t →
      ∃ k, t = Thread.caller (.start k) := by
    intro i t h
    show ∃ k, t = Thread.caller (.start k)
    have : (reqs.map (fun k => Thread.caller (V := V) (.start k)))[i]? =
        Option.map (fun k => Thread.caller (V := V) (.start k)) reqs[i]? :=
      List.getElem?_map _ _ _
    simp only [initState] at h
    rw [this] at h
    cases hr : reqs[i]? with
    | none => rw [hr] at h; simp at h
    | some k => rw [hr] at h; exact ⟨k, (Option.some_inj.mp h).symm⟩
  refine ⟨?_, ?_, ?_, ?_, ?_, ?_, ?_, ?_, ?_, ?_, ?_, ?_, ?_⟩
  · show (List.map Prod.fst []).Nodup
    simp
  · intro i t h hh
    obtain ⟨k, rfl⟩ := hth i t h
    simp [Thread.holdsLock] at hh
  · intro i h
    simp [initState] at h
  · intro i p h
    obtain ⟨k, hk⟩ := hth i _ h
    simp at hk
  · intro i j p q hi _ _
    obtain ⟨k, hk⟩ := hth i _ hi
    simp at hk
  · intro i k v h
    obtain ⟨k', hk⟩ := hth i _ h
    simp at hk
  · intro i k v h
    obtain ⟨k', hk⟩ := hth i _ h
    simp at hk
  · intro i k h
    obtain ⟨k', hk⟩ := hth i _ h
    simp at hk
  · intro gi g hg
    simp [initState] at hg
  · intro i k v h
    obtain ⟨k', hk⟩ := hth i _ h
    simp at hk
  · intro gi g hg
    simp [initState] at hg
  · intro gi g hg
    simp [initState] at hg
  · intro i k h
    obtain ⟨k', hk⟩ := hth i _ h
    simp at hk

/-! ### Transport lemmas for thread-pool updates -/

theorem thread_prop_set {K V : Type} {st : List (Thread K V)} {tid : Nat}
    {t' : Thread K V} (P : Nat → Thread K V → Prop)
    (hold : ∀ (i : Nat) (t : Thread K V), st[i]? = some t → P i t)
    (hnew : P tid t') :
    ∀ (i : Nat) (t : Thread K V), (st.set tid t')[i]? = some t → P i t := by
  intro i t h
  rcases getElem?_set_cases h with ⟨rfl, rfl, _⟩ | ⟨_, h⟩
  · exact hnew
  · exact hold i t h

theorem exec_lookup_set {K V : Type} {st : List (Thread K V)} {tid : Nat}
    {t' : Thread K V}
    (ht' : ∀ p : ExecPhase K V, t' = .exec p →
      ∃ p' : ExecPhase K V, st[tid]? = some (.exec p') ∧ p'.key = p.key) :
    ∀ (m : Nat) (r : ExecPhase K V), (st.set tid t')[m]? = some (.exec r) →
      ∃ r' : ExecPhase K V, st[m]? = some (.exec r') ∧ r'.key = r.key := by
  intro m r hm
  rcases getElem?_set_cases hm with ⟨rfl, rfl, _⟩ | ⟨_, hm⟩
  · exact ht' r rfl
  · exact ⟨r, hm, rfl⟩

theorem execUniq_set {K V : Type} {st : List (Thread K V)} {tid : Nat}
    {t' : Thread K V}
    (huniq : ∀ (i j : Nat) (p q : ExecPhase K V), st[i]? = some (.exec p) →
      st[j]? = some (.exec q) → p.key = q.key → i = j)
    (ht' : ∀ p : ExecPhase K V, t' = .exec p →
      ∃ p' : ExecPhase K V, st[tid]? = some (.exec p') ∧ p'.key = p.key) :
    ∀ (i j : Nat) (p q : ExecPhase K V),
      (st.set tid t')[i]? = some (.exec p) →
      (st.set tid t')[j]? = some (.exec q) → p.key = q.key → i = j := by
  intro i j p q hi hj hk
  obtain ⟨p', hp', hpk⟩ := exec_lookup_set ht' i p hi
  obtain ⟨q', hq', hqk⟩ := exec_lookup_set ht' j q hj
  exact huniq i j p' q' hp' hq' (by rw [hpk, hqk, hk])

theorem exists_finE_set {K V : Type} {st : List (Thread K V)} {tid : Nat}
    {t' : Thread K V} {k : K} {t0 : Thread K V}
    (ht0 : st[tid]? = some t0)
    (hkeep : t0 = .exec (.finishedE k) → t' = .exec (.finishedE k))
    (h : ∃ i : Nat, st[i]? = some (.exec (.finishedE k))) :
    ∃ i : Nat, (st.set tid t')[i]? = some (.exec (.finishedE k)) := by
  obtain ⟨i, hi⟩ := h
  by_cases hit : tid = i
  · subst hit
    have h0 : t0 = .exec (.finishedE k) := by
      rw [ht0] at hi
      exact Option.some_inj.mp hi
    exact ⟨tid, by
      rw [List.getElem?_set_self (length_lt_of_getElem? ht0), hkeep h0]⟩
  · exact ⟨i, by rw [List.getElem?_set_ne hit]; exact hi⟩

theorem keys_append_group {K V : Type} (st : SysState K V) (k : K) (b : Bus V) :
    (SysState.keys { st with groups := st.groups ++ [(k, b)] }) =
      st.keys ++ [k] := by
  show (st.groups ++ [(k, b)]).map Prod.fst = st.groups.map Prod.fst ++ [k]
  simp

theorem map_fst_set_bus {K V : Type} {gs : List (K × Bus V)} {gi : Nat}
    {g : K × Bus V} (b : Bus V) (hg : gs[gi]? = some g) :
    (gs.set gi (g.1, b)).map Prod.fst = gs.map Prod.fst := by
  rw [List.map_set]
  exact set_self_of_getElem? (by rw [List.getElem?_map, hg]; rfl)

theorem map_fst_append_group {K V : Type} (gs : List (K × Bus V)) (k : K)
    (b : Bus V) :
    (gs ++ [(k, b)]).map Prod.fst = gs.map Prod.fst ++ [k] := by
  simp

theorem nodup_keys_set_bus {K V : Type} {gs : List (K × Bus V)} {gi : Nat}
    {g : K × Bus V} (b : Bus V) (hg : gs[gi]? = some g)
    (h : (gs.map Prod.fst).Nodup) :
    ((gs.set gi (g.1, b)).map Prod.fst).Nodup := by
  rw [map_fst_set_bus b hg]
  exact h

theorem mem_keys_set_bus {K V : Type} {gs : List (K × Bus V)} {gi : Nat}
    {g : K × Bus V} {a : K} (b : Bus V) (hg : gs[gi]? = some g)
    (h : a ∈ gs.map Prod.fst) :
    a ∈ (gs.set gi (g.1, b)).map Prod.fst := by
  rw [map_fst_set_bus b hg]
  exact h

theorem nodup_keys_append_group {K V : Type} {gs : List (K × Bus V)} {k : K}
    (b : Bus V) (hk : k ∉ gs.map Prod.fst)
    (h : (gs.map Prod.fst).Nodup) :
    ((gs ++ [(k, b)]).map Prod.fst).Nodup := by
  rw [map_fst_append_group]
  refine h.append (List.nodup_singleton k) ?_
  intro a ha hb
  rw [List.mem_singleton] at hb
  subst hb
  exact hk ha

theorem mem_keys_append_left {K V : Type} {gs : List (K × Bus V)} {k a : K}
    (b : Bus V) (h : a ∈ gs.map Prod.fst) :
    a ∈ (gs ++ [(k, b)]).map Prod.fst := by
  rw [map_fst_append_group]
  exact List.mem_append_left [k] h

theorem mem_keys_append_self {K V : Type} (gs : List (K × Bus V)) (k : K)
    (b : Bus V) : k ∈ (gs ++ [(k, b)]).map Prod.fst := by
  rw [map_fst_append_group]
  exact List.mem_append_right _ (List.mem_singleton_self k)

/-- Preservation: every step of the system preserves the invariant. -/
theorem inv_step {K V : Type} {work : K → Option V} {st st' : SysState K V}
    (hinv : Inv work st) (hstep : Step work st st') : Inv work st' := by
  cases hstep with
  | acquire tid k ht hl =>
      refine ⟨?_, ?_, ?_, ?_, ?_, ?_, ?_, ?_, ?_, ?_, ?_, ?_, ?_⟩
      · exact hinv.nodup
      · intro i t hth hh
        rcases getElem?_set_cases hth with ⟨rfl, rfl, _⟩ | ⟨hne, hth⟩
        · rfl
        · have h0 := hinv.holder i t hth hh
          rw [hl] at h0
          exact absurd h0 (by simp)
      · intro i hli
        have h0 : some tid = some i := hli
        have h1 : tid = i := Option.some_inj.mp h0
        subst h1
        exact ⟨.caller (.locked k),
          List.getElem?_set_self (length_lt_of_getElem? ht), rfl⟩
      · intro i p hp
        rcases getElem?_set_cases hp with ⟨rfl, heq, _⟩ | ⟨_, hp⟩
        · exact absurd heq (by simp)
        · exact hinv.execMem i p hp
      · exact execUniq_set hinv.execUniq (fun p hp => absurd hp (by simp))
      · intro i k' v hp
        rcases getElem?_set_cases hp with ⟨rfl, heq, _⟩ | ⟨_, hp⟩
        · exact absurd heq (by simp)
        · exact hinv.awaitWork i k' v hp
      · intro i k' v hp
        rcases getElem?_set_cases hp with ⟨rfl, heq, _⟩ | ⟨_, hp⟩
        · exact absurd heq (by simp)
        · exact hinv.pubWork i k' v hp
      · intro i k' hp
        rcases getElem?_set_cases hp with ⟨rfl, heq, _⟩ | ⟨_, hp⟩
        · exact absurd heq (by simp)
        · exact hinv.finEWork i k' hp
      · exact hinv.queueWork
      · intro i k' v hp
        rcases getElem?_set_cases hp with ⟨rfl, heq, _⟩ | ⟨_, hp⟩
        · exact absurd heq (by simp)
        · exact hinv.finWork i k' v hp
      · intro gi g hg hdone
        exact exists_finE_set ht (fun h0 => absurd h0 (by simp))
          (hinv.doneFin gi g hg hdone)
      · exact hinv.notDoneNoQueue
      · intro i k' hp
        rcases getElem?_set_cases hp with ⟨rfl, heq, _⟩ | ⟨_, hp⟩
        · exact absurd heq (by simp)
        · exact hinv.noFail i k' hp
  | entryExisting tid k ht hl hk =>
      refine ⟨?_, ?_, ?_, ?_, ?_, ?_, ?_, ?_, ?_, ?_, ?_, ?_, ?_⟩
      · exact hinv.nodup
      · intro i t hth hh
        rcases getElem?_set_cases hth with ⟨rfl, rfl, _⟩ | ⟨hne, hth⟩
        · exact hl
        · exact hinv.holder i t hth hh
      · intro i hli
        have h0 : st.lock = some i := hli
        rw [hl] at h0
        have h1 : tid = i := Option.some_inj.mp h0
        subst h1
        exact ⟨.caller (.gotBus k),
          List.getElem?_set_self (length_lt_of_getElem? ht), rfl⟩
      · intro i p hp
        rcases getElem?_set_cases hp with ⟨rfl, heq, _⟩ | ⟨_, hp⟩
        · exact absurd heq (by simp)
        · exact hinv.execMem i p hp
      · exact execUniq_set hinv.execUniq (fun p hp => absurd hp (by simp))
      · intro i k' v hp
        rcases getElem?_set_cases hp with ⟨rfl, heq, _⟩ | ⟨_, hp⟩
        · exact absurd heq (by simp)
        · exact hinv.awaitWork i k' v hp
      · intro i k' v hp
        rcases getElem?_set_cases hp with ⟨rfl, heq, _⟩ | ⟨_, hp⟩
        · exact absurd heq (by simp)
        · exact hinv.pubWork i k' v hp
      · intro i k' hp
        rcases getElem?_set_cases hp with ⟨rfl, heq, _⟩ | ⟨_, hp⟩
        · exact absurd heq (by simp)
        · exact hinv.finEWork i k' hp
      · exact hinv.queueWork
      · intro i k' v hp
        rcases getElem?_set_cases hp with ⟨rfl, heq, _⟩ | ⟨_, hp⟩
        · exact absurd heq (by simp)
        · exact hinv.finWork i k' v hp
      · intro gi g hg hdone
        exact exists_finE_set ht (fun h0 => absurd h0 (by simp))
          (hinv.doneFin gi g hg hdone)
      · exact hinv.notDoneNoQueue
      · intro i k' hp
        rcases getElem?_set_cases hp with ⟨rfl, heq, _⟩ | ⟨_, hp⟩
        · exact absurd heq (by simp)
        · exact hinv.noFail i k' hp
  | entryInsert tid k ht hl hk =>
      refine ⟨?_, ?_, ?_, ?_, ?_, ?_, ?_, ?_, ?_, ?_, ?_, ?_, ?_⟩
      · exact nodup_keys_append_group (Bus.new V) hk hinv.nodup
      · intro i t hth hh
        rcases getElem?_concat_cases hth with hth | ⟨hi, rfl⟩
        · rcases getElem?_set_cases hth with ⟨rfl, rfl, _⟩ | ⟨_, hth⟩
          · exact hl
          · exact hinv.holder i t hth hh
        · simp [Thread.holdsLock] at hh
      · intro i hli
        have h0 : st.lock = some i := hli
        rw [hl] at h0
        have h1 : tid = i := Option.some_inj.mp h0
        subst h1
        refine ⟨.caller (.gotBus k), ?_, rfl⟩
        exact (List.getElem?_append_left (by
            rw [List.length_set]; exact length_lt_of_getElem? ht)).trans
          (List.getElem?_set_self (length_lt_of_getElem? ht))
      · intro i p hp
        rcases getElem?_concat_cases hp with hp | ⟨hi, heq⟩
        · rcases getElem?_set_cases hp with ⟨rfl, heq, _⟩ | ⟨_, hp⟩
          · exact absurd heq (by simp)
          · exact mem_keys_append_left (Bus.new V) (hinv.execMem i p hp)
        · injection heq with h
          subst h
          exact mem_keys_append_self st.groups k (Bus.new V)
      · intro i j p q hi hj hkey
        have conv : ∀ (m : Nat) (r : ExecPhase K V),
            ((st.threads.set tid (.caller (.gotBus k)))
              ++ [Thread.exec (.running k)])[m]? = some (.exec r) →
            st.threads[m]? = some (.exec r) ∨
              (m = st.threads.length ∧ r = .running k) := by
          intro m r hm
          rcases getElem?_concat_cases hm with hm | ⟨hmlen, heq⟩
          · rcases getElem?_set_cases hm with ⟨rfl, heq, _⟩ | ⟨_, hm⟩
            · exact absurd heq (by simp)
            · exact Or.inl hm
          · rw [List.length_set] at hmlen
            injection heq with h
            exact Or.inr ⟨hmlen, h⟩
        rcases conv i p hi with hi' | ⟨hi1, hi2⟩
        · rcases conv j q hj with hj' | ⟨hj1, hj2⟩
          · exact hinv.execUniq i j p q hi' hj' hkey
          · subst hj2
            have h5 : p.key ∈ st.keys := hinv.execMem i p hi'
            rw [hkey] at h5
            simp only [ExecPhase.key] at h5
            exact absurd h5 hk
        · rcases conv j q hj with hj' | ⟨hj1, hj2⟩
          · subst hi2
            have hq0 : q.key ∈ st.keys := hinv.execMem j q hj'
            rw [← hkey] at hq0
            exact absurd hq0 hk
          · rw [hi1, hj1]
      · intro i k' v hp
        rcases getElem?_concat_cases hp with hp | ⟨_, heq⟩
        · rcases getElem?_set_cases hp with ⟨rfl, heq, _⟩ | ⟨_, hp⟩
          · exact absurd heq (by simp)
          · exact hinv.awaitWork i k' v hp
        · exact absurd heq (by simp)
      · intro i k' v hp
        rcases getElem?_concat_cases hp with hp | ⟨_, heq⟩
        · rcases getElem?_set_cases hp with ⟨rfl, heq, _⟩ | ⟨_, hp⟩
          · exact absurd heq (by simp)
          · exact hinv.pubWork i k' v hp
        · exact absurd heq (by simp)
      · intro i k' hp
        rcases getElem?_concat_cases hp with hp | ⟨_, heq⟩
        · rcases getElem?_set_cases hp with ⟨rfl, heq, _⟩ | ⟨_, hp⟩
          · exact absurd heq (by simp)
          · exact hinv.finEWork i k' hp
        · exact absurd heq (by simp)
      · intro gi g hg v hv
        rcases getElem?_concat_cases hg with hg | ⟨_, rfl⟩
        · exact hinv.queueWork gi g hg v hv
        · simp [Bus.new] at hv
      · intro i k' v hp
        rcases getElem?_concat_cases hp with hp | ⟨_, heq⟩
        · rcases getElem?_set_cases hp with ⟨rfl, heq, _⟩ | ⟨_, hp⟩
          · exact absurd heq (by simp)
          · exact hinv.finWork i k' v hp
        · exact absurd heq (by simp)
      · intro gi g hg hdone
        rcases getElem?_concat_cases hg with hg | ⟨_, rfl⟩
        · obtain ⟨i, hi⟩ := hinv.doneFin gi g hg hdone
          have hne : tid ≠ i := by
            intro he
            subst he
            rw [ht] at hi
            exact absurd (Option.some_inj.mp hi) (by simp)
          refine ⟨i, ?_⟩
          exact (List.getElem?_append_left (by
              rw [List.length_set]; exact length_lt_of_getElem? hi)).trans
            (((List.getElem?_set_ne hne)).trans hi)
        · simp [Bus.new] at hdone
      · intro gi g hg hnd
        rcases getElem?_concat_cases hg with hg | ⟨_, rfl⟩
        · exact hinv.notDoneNoQueue gi g hg hnd
        · rfl
      · intro i k' hp
        rcases getElem?_concat_cases hp with hp | ⟨_, heq⟩
        · rcases getElem?_set_cases hp with ⟨rfl, heq, _⟩ | ⟨_, hp⟩
          · exact absurd heq (by simp)
          · exact hinv.noFail i k' hp
        · exact absurd heq (by simp)
  | addReceiver tid k gi g ht hl hg hgk =>
      refine ⟨?_, ?_, ?_, ?_, ?_, ?_, ?_, ?_, ?_, ?_, ?_, ?_, ?_⟩
      · exact nodup_keys_set_bus _ hg hinv.nodup
      · intro i t hth hh
        rcases getElem?_set_cases hth with ⟨rfl, rfl, _⟩ | ⟨hne, hth⟩
        · exact hl
        · exact hinv.holder i t hth hh
      · intro i hli
        have h0 : st.lock = some i := hli
        rw [hl] at h0
        have h1 : tid = i := Option.some_inj.mp h0
        subst h1
        exact ⟨.caller (.registered k (g.2.add_receiver).2),
          List.getElem?_set_self (length_lt_of_getElem? ht), rfl⟩
      · intro i p hp
        rcases getElem?_set_cases hp with ⟨rfl, heq, _⟩ | ⟨_, hp⟩
        · exact absurd heq (by simp)
        · exact mem_keys_set_bus _ hg (hinv.execMem i p hp)
      · exact execUniq_set hinv.execUniq (fun p hp => absurd hp (by simp))
      · intro i k' v hp
        rcases getElem?_set_cases hp with ⟨rfl, heq, _⟩ | ⟨_, hp⟩
        · exact absurd heq (by simp)
        · exact hinv.awaitWork i k' v hp
      · intro i k' v hp
        rcases getElem?_set_cases hp with ⟨rfl, heq, _⟩ | ⟨_, hp⟩
        · exact absurd heq (by simp)
        · exact hinv.pubWork i k' v hp
      · intro i k' hp
        rcases getElem?_set_cases hp with ⟨rfl, heq, _⟩ | ⟨_, hp⟩
        · exact absurd heq (by simp)
        · exact hinv.finEWork i k' hp
      · intro gi' g' hg' v hv
        rcases getElem?_set_cases hg' with ⟨rfl, rfl, _⟩ | ⟨_, hg'⟩
        · exact hinv.queueWork gi g hg v hv
        · exact hinv.queueWork gi' g' hg' v hv
      · intro i k' v hp
        rcases getElem?_set_cases hp with ⟨rfl, heq, _⟩ | ⟨_, hp⟩
        · exact absurd heq (by simp)
        · exact hinv.finWork i k' v hp
      · intro gi' g' hg' hdone
        rcases getElem?_set_cases hg' with ⟨rfl, rfl, _⟩ | ⟨_, hg'⟩
        · exact exists_finE_set ht (fun h0 => absurd h0 (by simp))
            (hinv.doneFin gi g hg hdone)
        · exact exists_finE_set ht (fun h0 => absurd h0 (by simp))
            (hinv.doneFin gi' g' hg' hdone)
      · intro gi' g' hg' hnd
        rcases getElem?_set_cases hg' with ⟨rfl, rfl, _⟩ | ⟨_, hg'⟩
        · exact hinv.notDoneNoQueue gi g hg hnd
        · exact hinv.notDoneNoQueue gi' g' hg' hnd
      · intro i k' hp
        rcases getElem?_set_cases hp with ⟨rfl, heq, _⟩ | ⟨_, hp⟩
        · exact absurd heq (by simp)
        · exact hinv.noFail i k' hp
  | releaseLock tid k rid ht hl =>
      refine ⟨?_, ?_, ?_, ?_, ?_, ?_, ?_, ?_, ?_, ?_, ?_, ?_, ?_⟩
      · exact hinv.nodup
      · intro i t hth hh
        rcases getElem?_set_cases hth with ⟨rfl, rfl, _⟩ | ⟨hne, hth⟩
        · simp [Thread.holdsLock] at hh
        · have h0 := hinv.holder i t hth hh
          rw [hl] at h0
          exact absurd (Option.some_inj.mp h0) hne
      · intro i hli
        exact absurd (show (none : Option Nat) = some i from hli) (by simp)
      · intro i p hp
        rcases getElem?_set_cases hp with ⟨rfl, heq, _⟩ | ⟨_, hp⟩
        · exact absurd heq (by simp)
        · exact hinv.execMem i p hp
      · exact execUniq_set hinv.execUniq (fun p hp => absurd hp (by simp))
      · intro i k' v hp
        rcases getElem?_set_cases hp with ⟨rfl, heq, _⟩ | ⟨_, hp⟩
        · exact absurd heq (by simp)
        · exact hinv.awaitWork i k' v hp
      · intro i k' v hp
        rcases getElem?_set_cases hp with ⟨rfl, heq, _⟩ | ⟨_, hp⟩
        · exact absurd heq (by simp)
        · exact hinv.pubWork i k' v hp
      · intro i k' hp
        rcases getElem?_set_cases hp with ⟨rfl, heq, _⟩ | ⟨_, hp⟩
        · exact absurd heq (by simp)
        · exact hinv.finEWork i k' hp
      · exact hinv.queueWork
      · intro i k' v hp
        rcases getElem?_set_cases hp with ⟨rfl, heq, _⟩ | ⟨_, hp⟩
        · exact absurd heq (by simp)
        · exact hinv.finWork i k' v hp
      · intro gi g hg hdone
        exact exists_finE_set ht (fun h0 => absurd h0 (by simp))
          (hinv.doneFin gi g hg hdone)
      · exact hinv.notDoneNoQueue
      · intro i k' hp
        rcases getElem?_set_cases hp with ⟨rfl, heq, _⟩ | ⟨_, hp⟩
        · exact absurd heq (by simp)
        · exact hinv.noFail i k' hp
  | recvMsg tid k rid gi g v rest ht hg hgk hq =>
      refine ⟨?_, ?_, ?_, ?_, ?_, ?_, ?_, ?_, ?_, ?_, ?_, ?_, ?_⟩
      · exact nodup_keys_set_bus _ hg hinv.nodup
      · intro i t hth hh
        rcases getElem?_set_cases hth with ⟨rfl, rfl, _⟩ | ⟨hne, hth⟩
        · simp [Thread.holdsLock] at hh
        · exact hinv.holder i t hth hh
      · intro i hli
        obtain ⟨t, htw, hh⟩ := hinv.lockInv i hli
        have hne : tid ≠ i := by
          intro he
          subst he
          rw [ht] at htw
          have h0 := Option.some_inj.mp htw
          rw [← h0] at hh
          simp [Thread.holdsLock] at hh
        exact ⟨t, (List.getElem?_set_ne hne).trans htw, hh⟩
      · intro i p hp
        rcases getElem?_set_cases hp with ⟨rfl, heq, _⟩ | ⟨_, hp⟩
        · exact absurd heq (by simp)
        · exact mem_keys_set_bus _ hg (hinv.execMem i p hp)
      · exact execUniq_set hinv.execUniq (fun p hp => absurd hp (by simp))
      · intro i k' v' hp
        rcases getElem?_set_cases hp with ⟨rfl, heq, _⟩ | ⟨_, hp⟩
        · exact absurd heq (by simp)
        · exact hinv.awaitWork i k' v' hp
      · intro i k' v' hp
        rcases getElem?_set_cases hp with ⟨rfl, heq, _⟩ | ⟨_, hp⟩
        · exact absurd heq (by simp)
        · exact hinv.pubWork i k' v' hp
      · intro i k' hp
        rcases getElem?_set_cases hp with ⟨rfl, heq, _⟩ | ⟨_, hp⟩
        · exact absurd heq (by simp)
        · exact hinv.finEWork i k' hp
      · intro gi' g' hg' v' hv
        rcases getElem?_set_cases hg' with ⟨rfl, rfl, _⟩ | ⟨_, hg'⟩
        · refine hinv.queueWork gi g hg v' ?_
          rw [hq]
          exact List.mem_cons_of_mem v hv
        · exact hinv.queueWork gi' g' hg' v' hv
      · intro i k' v' hp
        rcases getElem?_set_cases hp with ⟨rfl, heq, _⟩ | ⟨_, hp⟩
        · injection heq with h1
          injection h1 with h2 h3
          rw [h2, h3]
          have h4 := hinv.queueWork gi g hg v (by
            rw [hq]; exact List.mem_cons_self v rest)
          rw [hgk] at h4
          exact h4
        · exact hinv.finWork i k' v' hp
      · intro gi' g' hg' hdone
        rcases getElem?_set_cases hg' with ⟨rfl, rfl, _⟩ | ⟨_, hg'⟩
        · exact exists_finE_set ht (fun h0 => absurd h0 (by simp))
            (hinv.doneFin gi g hg hdone)
        · exact exists_finE_set ht (fun h0 => absurd h0 (by simp))
            (hinv.doneFin gi' g' hg' hdone)
      · intro gi' g' hg' hnd
        rcases getElem?_set_cases hg' with ⟨rfl, rfl, _⟩ | ⟨_, hg'⟩
        · have h0 := hinv.notDoneNoQueue gi g hg hnd
          rw [hq] at h0
          exact absurd h0 (by simp)
        · exact hinv.notDoneNoQueue gi' g' hg' hnd
      · intro i k' hp
        rcases getElem?_set_cases hp with ⟨rfl, heq, _⟩ | ⟨_, hp⟩
        · exact absurd heq (by simp)
        · exact hinv.noFail i k' hp
  | workOk tid k v ht hw =>
      refine ⟨?_, ?_, ?_, ?_, ?_, ?_, ?_, ?_, ?_, ?_, ?_, ?_, ?_⟩
      · exact hinv.nodup
      · intro i t hth hh
        rcases getElem?_set_cases hth with ⟨rfl, rfl, _⟩ | ⟨hne, hth⟩
        · simp [Thread.holdsLock] at hh
        · exact hinv.holder i t hth hh
      · intro i hli
        obtain ⟨t, htw, hh⟩ := hinv.lockInv i hli
        have hne : tid ≠ i := by
          intro he
          subst he
          rw [ht] at htw
          have h0 := Option.some_inj.mp htw
          rw [← h0] at hh
          simp [Thread.holdsLock] at hh
        exact ⟨t, (List.getElem?_set_ne hne).trans htw, hh⟩
      · intro i p hp
        rcases getElem?_set_cases hp with ⟨rfl, heq, _⟩ | ⟨_, hp⟩
        · injection heq with h
          subst h
          exact hinv.execMem tid (.running k) ht
        · exact hinv.execMem i p hp
      · exact execUniq_set hinv.execUniq (fun p hp => by
          injection hp with h
          subst h
          exact ⟨.running k, ht, rfl⟩)
      · intro i k' v' hp
        rcases getElem?_set_cases hp with ⟨rfl, heq, _⟩ | ⟨_, hp⟩
        · injection heq with h1
          injection h1 with h2 h3
          rw [h2, h3]
          exact hw
        · exact hinv.awaitWork i k' v' hp
      · intro i k' v' hp
        rcases getElem?_set_cases hp with ⟨rfl, heq, _⟩ | ⟨_, hp⟩
        · exact absurd heq (by simp)
        · exact hinv.pubWork i k' v' hp
      · intro i k' hp
        rcases getElem?_set_cases hp with ⟨rfl, heq, _⟩ | ⟨_, hp⟩
        · exact absurd heq (by simp)
        · exact hinv.finEWork i k' hp
      · exact hinv.queueWork
      · intro i k' v' hp
        rcases getElem?_set_cases hp with ⟨rfl, heq, _⟩ | ⟨_, hp⟩
        · exact absurd heq (by simp)
        · exact hinv.finWork i k' v' hp
      · intro gi g hg hdone
        exact exists_finE_set ht (fun h0 => absurd h0 (by simp))
          (hinv.doneFin gi g hg hdone)
      · exact hinv.notDoneNoQueue
      · intro i k' hp
        rcases getElem?_set_cases hp with ⟨rfl, heq, _⟩ | ⟨_, hp⟩
        · exact absurd heq (by simp)
        · exact hinv.noFail i k' hp
  | workPanic tid k ht hw =>
      refine ⟨?_, ?_, ?_, ?_, ?_, ?_, ?_, ?_, ?_, ?_, ?_, ?_, ?_⟩
      · exact hinv.nodup
      · intro i t hth hh
        rcases getElem?_set_cases hth with ⟨rfl, rfl, _⟩ | ⟨hne, hth⟩
        · simp [Thread.holdsLock] at hh
        · exact hinv.holder i t hth hh
      · intro i hli
        obtain ⟨t, htw, hh⟩ := hinv.lockInv i hli
        have hne : tid ≠ i := by
          intro he
          subst he
          rw [ht] at htw
          have h0 := Option.some_inj.mp htw
          rw [← h0] at hh
          simp [Thread.holdsLock] at hh
        exact ⟨t, (List.getElem?_set_ne hne).trans htw, hh⟩
      · intro i p hp
        rcases getElem?_set_cases hp with ⟨rfl, heq, _⟩ | ⟨_, hp⟩
        · injection heq with h
          subst h
          exact hinv.execMem tid (.running k) ht
        · exact hinv.execMem i p hp
      · exact execUniq_set hinv.execUniq (fun p hp => by
          injection hp with h
          subst h
          exact ⟨.running k, ht, rfl⟩)
      · intro i k' v' hp
        rcases getElem?_set_cases hp with ⟨rfl, heq, _⟩ | ⟨_, hp⟩
        · exact absurd heq (by simp)
        · exact hinv.awaitWork i k' v' hp
      · intro i k' v' hp
        rcases getElem?_set_cases hp with ⟨rfl, heq, _⟩ | ⟨_, hp⟩
        · exact absurd heq (by simp)
        · exact hinv.pubWork i k' v' hp
      · intro i k' hp
        rcases getElem?_set_cases hp with ⟨rfl, heq, _⟩ | ⟨_, hp⟩
        · exact absurd heq (by simp)
        · exact hinv.finEWork i k' hp
      · exact hinv.queueWork
      · intro i k' v' hp
        rcases getElem?_set_cases hp with ⟨rfl, heq, _⟩ | ⟨_, hp⟩
        · exact absurd heq (by simp)
        · exact hinv.finWork i k' v' hp
      · intro gi g hg hdone
        exact exists_finE_set ht (fun h0 => absurd h0 (by simp))
          (hinv.doneFin gi g hg hdone)
      · exact hinv.notDoneNoQueue
      · intro i k' hp
        rcases getElem?_set_cases hp with ⟨rfl, heq, _⟩ | ⟨_, hp⟩
        · exact absurd heq (by simp)
        · exact hinv.noFail i k' hp
  | execAcquire tid k v ht hl =>
      refine ⟨?_, ?_, ?_, ?_, ?_, ?_, ?_, ?_, ?_, ?_, ?_, ?_, ?_⟩
      · exact hinv.nodup
      · intro i t hth hh
        rcases getElem?_set_cases hth with ⟨rfl, rfl, _⟩ | ⟨hne, hth⟩
        · rfl
        · have h0 := hinv.holder i t hth hh
          rw [hl] at h0
          exact absurd h0 (by simp)
      · intro i hli
        have h0 : some tid = some i := hli
        have h1 : tid = i := Option.some_inj.mp h0
        subst h1
        exact ⟨.exec (.publishing k v),
          List.getElem?_set_self (length_lt_of_getElem? ht), rfl⟩
      · intro i p hp
        rcases getElem?_set_cases hp with ⟨rfl, heq, _⟩ | ⟨_, hp⟩
        · injection heq with h
          subst h
          exact hinv.execMem tid (.awaitLock k v) ht
        · exact hinv.execMem i p hp
      · exact execUniq_set hinv.execUniq (fun p hp => by
          injection hp with h
          subst h
          exact ⟨.awaitLock k v, ht, rfl⟩)
      · intro i k' v' hp
        rcases getElem?_set_cases hp with ⟨rfl, heq, _⟩ | ⟨_, hp⟩
        · exact absurd heq (by simp)
        · exact hinv.awaitWork i k' v' hp
      · intro i k' v' hp
        rcases getElem?_set_cases hp with ⟨rfl, heq, _⟩ | ⟨_, hp⟩
        · injection heq with h1
          injection h1 with h2 h3
          rw [h2, h3]
          exact hinv.awaitWork tid k v ht
        · exact hinv.pubWork i k' v' hp
      · intro i k' hp
        rcases getElem?_set_cases hp with ⟨rfl, heq, _⟩ | ⟨_, hp⟩
        · exact absurd heq (by simp)
        · exact hinv.finEWork i k' hp
      · exact hinv.queueWork
      · intro i k' v' hp
        rcases getElem?_set_cases hp with ⟨rfl, heq, _⟩ | ⟨_, hp⟩
        · exact absurd heq (by simp)
        · exact hinv.finWork i k' v' hp
      · intro gi g hg hdone
        exact exists_finE_set ht (fun h0 => absurd h0 (by simp))
          (hinv.doneFin gi g hg hdone)
      · exact hinv.notDoneNoQueue
      · intro i k' hp
        rcases getElem?_set_cases hp with ⟨rfl, heq, _⟩ | ⟨_, hp⟩
        · exact absurd heq (by simp)
        · exact hinv.noFail i k' hp
  | publish tid k v gi g ht hl hg hgk =>
      refine ⟨?_, ?_, ?_, ?_, ?_, ?_, ?_, ?_, ?_, ?_, ?_, ?_, ?_⟩
      · exact nodup_keys_set_bus _ hg hinv.nodup
      · intro i t hth hh
        rcases getElem?_set_cases hth with ⟨rfl, rfl, _⟩ | ⟨hne, hth⟩
        · simp [Thread.holdsLock] at hh
        · have h0 := hinv.holder i t hth hh
          rw [hl] at h0
          exact absurd (Option.some_inj.mp h0) hne
      · intro i hli
        exact absurd (show (none : Option Nat) = some i from hli) (by simp)
      · intro i p hp
        rcases getElem?_set_cases hp with ⟨rfl, heq, _⟩ | ⟨_, hp⟩
        · injection heq with h
          subst h
          exact mem_keys_set_bus _ hg (hinv.execMem tid (.publishing k v) ht)
        · exact mem_keys_set_bus _ hg (hinv.execMem i p hp)
      · exact execUniq_set hinv.execUniq (fun p hp => by
          injection hp with h
          subst h
          exact ⟨.publishing k v, ht, rfl⟩)
      · intro i k' v' hp
        rcases getElem?_set_cases hp with ⟨rfl, heq, _⟩ | ⟨_, hp⟩
        · exact absurd heq (by simp)
        · exact hinv.awaitWork i k' v' hp
      · intro i k' v' hp
        rcases getElem?_set_cases hp with ⟨rfl, heq, _⟩ | ⟨_, hp⟩
        · exact absurd heq (by simp)
        · exact hinv.pubWork i k' v' hp
      · intro i k' hp
        rcases getElem?_set_cases hp with ⟨rfl, heq, _⟩ | ⟨_, hp⟩
        · injection heq with h1
          injection h1 with h2
          rw [h2]
          exact ⟨v, hinv.pubWork tid k v ht⟩
        · exact hinv.finEWork i k' hp
      · intro gi' g' hg' v' hv
        rcases getElem?_set_cases hg' with ⟨rfl, rfl, _⟩ | ⟨_, hg'⟩
        · rcases mem_broadcast_queue hv with hv' | rfl
          · exact hinv.queueWork gi g hg v' hv'
          · show work g.1 = some v'
            rw [hgk]
            exact hinv.pubWork tid k v' ht
        · exact hinv.queueWork gi' g' hg' v' hv
      · intro i k' v' hp
        rcases getElem?_set_cases hp with ⟨rfl, heq, _⟩ | ⟨_, hp⟩
        · exact absurd heq (by simp)
        · exact hinv.finWork i k' v' hp
      · intro gi' g' hg' hdone
        rcases getElem?_set_cases hg' with ⟨rfl, rfl, _⟩ | ⟨_, hg'⟩
        · refine ⟨tid, ?_⟩
          show (st.threads.set tid (Thread.exec (.finishedE k)))[tid]? =
            some (.exec (.finishedE g.1))
          rw [hgk]
          exact List.getElem?_set_self (length_lt_of_getElem? ht)
        · exact exists_finE_set ht (fun h0 => absurd h0 (by simp))
            (hinv.doneFin gi' g' hg' hdone)
      · intro gi' g' hg' hnd
        rcases getElem?_set_cases hg' with ⟨rfl, rfl, _⟩ | ⟨_, hg'⟩
        · exact absurd hnd (by simp)
        · exact hinv.notDoneNoQueue gi' g' hg' hnd
      · intro i k' hp
        rcases getElem?_set_cases hp with ⟨rfl, heq, _⟩ | ⟨_, hp⟩
        · exact absurd heq (by simp)
        · exact hinv.noFail i k' hp
  | publishMissing tid k v ht hl hk =>
      exact absurd (hinv.execMem tid (.publishing k v) ht) hk

/-- Every reachable state satisfies the invariant. -/
theorem reachable_inv {K V : Type} {work : K → Option V} {reqs : List K}
    {st : SysState K V} (h : Reachable work reqs st) : Inv work st := by
  induction h with
  | refl => exact inv_init work reqs
  | tail _ hstep ih => exact inv_step ih hstep

theorem inv_rtg {K V : Type} {work : K → Option V} {st st' : SysState K V}
    (hinv : Inv work st) (h : Relation.ReflTransGen (Step work) st st') :
    Inv work st' := by
  induction h with
  | refl => exact hinv
  | tail _ hstep ih => exact inv_step ih hstep

/-- In a duplicate-free registry, a key determines its group's index. -/
theorem nodup_key_index_unique {K V : Type} {gs : List (K × Bus V)}
    (hnd : (gs.map Prod.fst).Nodup) {i j : Nat} {x y : K × Bus V}
    (hi : gs[i]? = some x) (hj : gs[j]? = some y) (hxy : x.1 = y.1) :
    i = j := by
  have hi' : (gs.map Prod.fst)[i]? = some x.1 := by
    rw [List.getElem?_map, hi]; rfl
  have hj' : (gs.map Prod.fst)[j]? = some y.1 := by
    rw [List.getElem?_map, hj]; rfl
  refine List.getElem?_inj ?_ hnd ?_
  · rw [List.length_map]
    exact length_lt_of_getElem? hi
  · rw [hi', hj', hxy]

/-- A group's key is in the registry's key list. -/
theorem key_mem_of_getElem? {K V : Type} {gs : List (K × Bus V)} {gi : Nat}
    {g : K × Bus V} (hg : gs[gi]? = some g) : g.1 ∈ gs.map Prod.fst := by
  refine List.getElem?_mem (n := gi) ?_
  rw [List.getElem?_map, hg]
  rfl

/-! ### Structural facts about single steps -/

/-- No step removes a key from the registry. -/
theorem step_keys_mono {K V : Type} {work : K → Option V}
    {st st' : SysState K V} (h : Step work st st') :
    ∀ a ∈ st.keys, a ∈ st'.keys := by
  intro a ha
  cases h with
  | acquire tid k ht hl => exact ha
  | entryExisting tid k ht hl hk => exact ha
  | entryInsert tid k ht hl hk => exact mem_keys_append_left _ ha
  | addReceiver tid k gi0 g0 ht hl hg0 hgk0 => exact mem_keys_set_bus _ hg0 ha
  | releaseLock tid k rid ht hl => exact ha
  | recvMsg tid k rid gi0 g0 v rest ht hg0 hgk0 hq0 =>
      exact mem_keys_set_bus _ hg0 ha
  | workOk tid k v ht hw => exact ha
  | workPanic tid k ht hw => exact ha
  | execAcquire tid k v ht hl => exact ha
  | publish tid k v gi0 g0 ht hl hg0 hgk0 => exact mem_keys_set_bus _ hg0 ha
  | publishMissing tid k v ht hl hk => exact ha

theorem rtg_keys_mono {K V : Type} {work : K → Option V}
    {st st' : SysState K V} (h : Relation.ReflTransGen (Step work) st st') :
    ∀ a ∈ st.keys, a ∈ st'.keys := by
  induction h with
  | refl => exact fun a ha => ha
  | tail _ hstep ih => exact fun a ha => step_keys_mono hstep a (ih a ha)

/-- No step removes a group: the entry at each index keeps its key. -/
theorem step_group_persist {K V : Type} {work : K → Option V}
    {st st' : SysState K V} (h : Step work st st') (gi : Nat)
    (g : K × Bus V) (hg : st.groups[gi]? = some g) :
    ∃ b : Bus V, st'.groups[gi]? = some (g.1, b) := by
  cases h with
  | acquire tid k ht hl => exact ⟨g.2, hg⟩
  | entryExisting tid k ht hl hk => exact ⟨g.2, hg⟩
  | entryInsert tid k ht hl hk =>
      exact ⟨g.2,
        (List.getElem?_append_left (length_lt_of_getElem? hg)).trans hg⟩
  | addReceiver tid k gi0 g0 ht hl hg0 hgk0 =>
      by_cases hgi : gi0 = gi
      · subst hgi
        rw [hg] at hg0
        cases Option.some_inj.mp hg0
        exact ⟨(g.2.add_receiver).1,
          List.getElem?_set_self (length_lt_of_getElem? hg)⟩
      · exact ⟨g.2, (List.getElem?_set_ne hgi).trans hg⟩
  | releaseLock tid k rid ht hl => exact ⟨g.2, hg⟩
  | recvMsg tid k rid gi0 g0 v rest ht hg0 hgk0 hq0 =>
      by_cases hgi : gi0 = gi
      · subst hgi
        rw [hg] at hg0
        cases Option.some_inj.mp hg0
        exact ⟨⟨rest, g.2.weak_receivers.set rid 0, g.2.broadcastDone⟩,
          List.getElem?_set_self (length_lt_of_getElem? hg)⟩
      · exact ⟨g.2, (List.getElem?_set_ne hgi).trans hg⟩
  | workOk tid k v ht hw => exact ⟨g.2, hg⟩
  | workPanic tid k ht hw => exact ⟨g.2, hg⟩
  | execAcquire tid k v ht hl => exact ⟨g.2, hg⟩
  | publish tid k v gi0 g0 ht hl hg0 hgk0 =>
      by_cases hgi : gi0 = gi
      · subst hgi
        rw [hg] at hg0
        cases Option.some_inj.mp hg0
        exact ⟨{ g.2.broadcast v with broadcastDone := true },
          List.getElem?_set_self (length_lt_of_getElem? hg)⟩
      · exact ⟨g.2, (List.getElem?_set_ne hgi).trans hg⟩
  | publishMissing tid k v ht hl hk => exact ⟨g.2, hg⟩

theorem rtg_group_persist {K V : Type} {work : K → Option V}
    {st st' : SysState K V} (h : Relation.ReflTransGen (Step work) st st')
    (gi : Nat) (g : K × Bus V) (hg : st.groups[gi]? = some g) :
    ∃ b : Bus V, st'.groups[gi]? = some (g.1, b) := by
  induction h with
  | refl => exact ⟨g.2, hg⟩
  | tail _ hstep ih =>
      obtain ⟨b, hb⟩ := ih
      obtain ⟨b', hb'⟩ := step_group_persist hstep gi (g.1, b) hb
      exact ⟨b', hb'⟩

/-- No step removes an entry from a group's `weak_receivers`: the list can
only keep each entry (possibly dropped to strong count 0 when its owner's
`subscribe_to` returns) or grow. -/
theorem step_receivers_preserve {K V : Type} {work : K → Option V}
    {st st' : SysState K V} (h : Step work st st') (gi : Nat)
    (g g' : K × Bus V) (hg : st.groups[gi]? = some g)
    (hg' : st'.groups[gi]? = some g') :
    g'.1 = g.1 ∧
    g.2.weak_receivers.length ≤ g'.2.weak_receivers.length ∧
    ∀ (j r : Nat), g.2.weak_receivers[j]? = some r →
      g'.2.weak_receivers[j]? = some r ∨ g'.2.weak_receivers[j]? = some 0 := by
  cases h with
  | acquire tid k ht hl =>
      have h0 : st.groups[gi]? = some g' := hg'
      rw [hg] at h0
      cases Option.some_inj.mp h0
      exact ⟨rfl, Nat.le.refl, fun j r hr => Or.inl hr⟩
  | entryExisting tid k ht hl hk =>
      have h0 : st.groups[gi]? = some g' := hg'
      rw [hg] at h0
      cases Option.some_inj.mp h0
      exact ⟨rfl, Nat.le.refl, fun j r hr => Or.inl hr⟩
  | entryInsert tid k ht hl hk =>
      have h0 : st.groups[gi]? = some g' :=
        (List.getElem?_append_left (length_lt_of_getElem? hg)).symm.trans hg'
      rw [hg] at h0
      cases Option.some_inj.mp h0
      exact ⟨rfl, Nat.le.refl, fun j r hr => Or.inl hr⟩
  | addReceiver tid k gi0 g0 ht hl hg0 hgk0 =>
      by_cases hgi : gi0 = gi
      · subst hgi
        rw [hg] at hg0
        cases Option.some_inj.mp hg0
        have h0 : (st.groups.set gi0 (g.1, (g.2.add_receiver).1))[gi0]? =
            some g' := hg'
        rw [List.getElem?_set_self (length_lt_of_getElem? hg)] at h0
        cases Option.some_inj.mp h0
        refine ⟨rfl, ?_, ?_⟩
        · show g.2.weak_receivers.length ≤
            (g.2.weak_receivers ++ [1]).length
          simp
        · intro j r hr
          exact Or.inl
            ((List.getElem?_append_left (length_lt_of_getElem? hr)).trans hr)
      · have h0 : st.groups[gi]? = some g' :=
          (List.getElem?_set_ne hgi).symm.trans hg'
        rw [hg] at h0
        cases Option.some_inj.mp h0
        exact ⟨rfl, Nat.le.refl, fun j r hr => Or.inl hr⟩
  | releaseLock tid k rid ht hl =>
      have h0 : st.groups[gi]? = some g' := hg'
      rw [hg] at h0
      cases Option.some_inj.mp h0
      exact ⟨rfl, Nat.le.refl, fun j r hr => Or.inl hr⟩
  | recvMsg tid k rid gi0 g0 v rest ht hg0 hgk0 hq0 =>
      by_cases hgi : gi0 = gi
      · subst hgi
        rw [hg] at hg0
        cases Option.some_inj.mp hg0
        have h0 : (st.groups.set gi0
            (g.1, ⟨rest, g.2.weak_receivers.set rid 0,
              g.2.broadcastDone⟩))[gi0]? = some g' := hg'
        rw [List.getElem?_set_self (length_lt_of_getElem? hg)] at h0
        cases Option.some_inj.mp h0
        refine ⟨rfl, ?_, ?_⟩
        · show g.2.weak_receivers.length ≤
            (g.2.weak_receivers.set rid 0).length
          simp
        · intro j r hr
          by_cases hj : rid = j
          · subst hj
            exact Or.inr
              (List.getElem?_set_self (length_lt_of_getElem? hr))
          · exact Or.inl ((List.getElem?_set_ne hj).trans hr)
      · have h0 : st.groups[gi]? = some g' :=
          (List.getElem?_set_ne hgi).symm.trans hg'
        rw [hg] at h0
        cases Option.some_inj.mp h0
        exact ⟨rfl, Nat.le.refl, fun j r hr => Or.inl hr⟩
  | workOk tid k v ht hw =>
      have h0 : st.groups[gi]? = some g' := hg'
      rw [hg] at h0
      cases Option.some_inj.mp h0
      exact ⟨rfl, Nat.le.refl, fun j r hr => Or.inl hr⟩
  | workPanic tid k ht hw =>
      have h0 : st.groups[gi]? = some g' := hg'
      rw [hg] at h0
      cases Option.some_inj.mp h0
      exact ⟨rfl, Nat.le.refl, fun j r hr => Or.inl hr⟩
  | execAcquire tid k v ht hl =>
      have h0 : st.groups[gi]? = some g' := hg'
      rw [hg] at h0
      cases Option.some_inj.mp h0
      exact ⟨rfl, Nat.le.refl, fun j r hr => Or.inl hr⟩
  | publish tid k v gi0 g0 ht hl hg0 hgk0 =>
      by_cases hgi : gi0 = gi
      · subst hgi
        rw [hg] at hg0
        cases Option.some_inj.mp hg0
        have h0 : (st.groups.set gi0
            (g.1, { g.2.broadcast v with broadcastDone := true }))[gi0]? =
            some g' := hg'
        rw [List.getElem?_set_self (length_lt_of_getElem? hg)] at h0
        cases Option.some_inj.mp h0
        exact ⟨rfl, Nat.le.refl, fun j r hr => Or.inl hr⟩
      · have h0 : st.groups[gi]? = some g' :=
          (List.getElem?_set_ne hgi).symm.trans hg'
        rw [hg] at h0
        cases Option.some_inj.mp h0
        exact ⟨rfl, Nat.le.refl, fun j r hr => Or.inl hr⟩
  | publishMissing tid k v ht hl hk =>
      have h0 : st.groups[gi]? = some g' := hg'
      rw [hg] at h0
      cases Option.some_inj.mp h0
      exact ⟨rfl, Nat.le.refl, fun j r hr => Or.inl hr⟩

/-- The only step that grows a group's `weak_receivers` is `add_receiver`
inside `subscribe_to`: it appends exactly one entry with strong count 1 and
runs entirely while the registry mutex is held (and still held after). -/
theorem step_receivers_growth {K V : Type} {work : K → Option V}
    {st st' : SysState K V} (h : Step work st st') (gi : Nat)
    (g g' : K × Bus V) (hg : st.groups[gi]? = some g)
    (hg' : st'.groups[gi]? = some g')
    (hlt : g.2.weak_receivers.length < g'.2.weak_receivers.length) :
    g'.2.weak_receivers = g.2.weak_receivers ++ [1] ∧
    ∃ tid : Nat, st.lock = some tid ∧ st'.lock = some tid := by
  cases h with
  | acquire tid k ht hl =>
      have h0 : st.groups[gi]? = some g' := hg'
      rw [hg] at h0
      cases Option.some_inj.mp h0
      exact absurd hlt (lt_irrefl _)
  | entryExisting tid k ht hl hk =>
      have h0 : st.groups[gi]? = some g' := hg'
      rw [hg] at h0
      cases Option.some_inj.mp h0
      exact absurd hlt (lt_irrefl _)
  | entryInsert tid k ht hl hk =>
      have h0 : st.groups[gi]? = some g' :=
        (List.getElem?_append_left (length_lt_of_getElem? hg)).symm.trans hg'
      rw [hg] at h0
      cases Option.some_inj.mp h0
      exact absurd hlt (lt_irrefl _)
  | addReceiver tid k gi0 g0 ht hl hg0 hgk0 =>
      by_cases hgi : gi0 = gi
      · subst hgi
        rw [hg] at hg0
        cases Option.some_inj.mp hg0
        have h0 : (st.groups.set gi0 (g.1, (g.2.add_receiver).1))[gi0]? =
            some g' := hg'
        rw [List.getElem?_set_self (length_lt_of_getElem? hg)] at h0
        cases Option.some_inj.mp h0
        exact ⟨rfl, tid, hl, hl⟩
      · have h0 : st.groups[gi]? = some g' :=
          (List.getElem?_set_ne hgi).symm.trans hg'
        rw [hg] at h0
        cases Option.some_inj.mp h0
        exact absurd hlt (lt_irrefl _)
  | releaseLock tid k rid ht hl =>
      have h0 : st.groups[gi]? = some g' := hg'
      rw [hg] at h0
      cases Option.some_inj.mp h0
      exact absurd hlt (lt_irrefl _)
  | recvMsg tid k rid gi0 g0 v rest ht hg0 hgk0 hq0 =>
      by_cases hgi : gi0 = gi
      · subst hgi
        rw [hg] at hg0
        cases Option.some_inj.mp hg0
        have h0 : (st.groups.set gi0
            (g.1, ⟨rest, g.2.weak_receivers.set rid 0,
              g.2.broadcastDone⟩))[gi0]? = some g' := hg'
        rw [List.getElem?_set_self (length_lt_of_getElem? hg)] at h0
        cases Option.some_inj.mp h0
        have h1 : (g.2.weak_receivers.set rid 0).length =
            g.2.weak_receivers.length := by simp
        rw [show ((g.1, (⟨rest, g.2.weak_receivers.set rid 0,
          g.2.broadcastDone⟩ : Bus V)) : K × Bus V).2.weak_receivers.length =
          (g.2.weak_receivers.set rid 0).length from rfl, h1] at hlt
        exact absurd hlt (lt_irrefl _)
      · have h0 : st.groups[gi]? = some g' :=
          (List.getElem?_set_ne hgi).symm.trans hg'
        rw [hg] at h0
        cases Option.some_inj.mp h0
        exact absurd hlt (lt_irrefl _)
  | workOk tid k v ht hw =>
      have h0 : st.groups[gi]? = some g' := hg'
      rw [hg] at h0
      cases Option.some_inj.mp h0
      exact absurd hlt (lt_irrefl _)
  | workPanic tid k ht hw =>
      have h0 : st.groups[gi]? = some g' := hg'
      rw [hg] at h0
      cases Option.some_inj.mp h0
      exact absurd hlt (lt_irrefl _)
  | execAcquire tid k v ht hl =>
      have h0 : st.groups[gi]? = some g' := hg'
      rw [hg] at h0
      cases Option.some_inj.mp h0
      exact absurd hlt (lt_irrefl _)
  | publish tid k v gi0 g0 ht hl hg0 hgk0 =>
      by_cases hgi : gi0 = gi
      · subst hgi
        rw [hg] at hg0
        cases Option.some_inj.mp hg0
        have h0 : (st.groups.set gi0
            (g.1, { g.2.broadcast v with broadcastDone := true }))[gi0]? =
            some g' := hg'
        rw [List.getElem?_set_self (length_lt_of_getElem? hg)] at h0
        cases Option.some_inj.mp h0
        exact absurd hlt (lt_irrefl _)
      · have h0 : st.groups[gi]? = some g' :=
          (List.getElem?_set_ne hgi).symm.trans hg'
        rw [hg] at h0
        cases Option.some_inj.mp h0
        exact absurd hlt (lt_irrefl _)
  | publishMissing tid k v ht hl hk =>
      have h0 : st.groups[gi]? = some g' := hg'
      rw [hg] at h0
      cases Option.some_inj.mp h0
      exact absurd hlt (lt_irrefl _)

/-- The only step that grows the thread pool is the or_insert_with closure:
spawning happens only when the key was absent, the new group is already in
the registry in the same atomic step, and the registry mutex is held
throughout (still held after). -/
theorem step_spawn_char {K V : Type} {work : K → Option V}
    {st st' : SysState K V} (h : Step work st st')
    (hlt : st.threads.length < st'.threads.length) :
    ∃ (tid : Nat) (k : K), st.lock = some tid ∧ st'.lock = some tid ∧
      k ∉ st.keys ∧ k ∈ st'.keys ∧
      st'.threads[st.threads.length]? = some (.exec (.running k)) ∧
      st'.threads[tid]? = some (.caller (.gotBus k)) := by
  cases h with
  | acquire tid k ht hl => simp at hlt
  | entryExisting tid k ht hl hk => simp at hlt
  | entryInsert tid k ht hl hk =>
      refine ⟨tid, k, hl, hl, hk,
        mem_keys_append_self st.groups k (Bus.new V), ?_, ?_⟩
      · have h1 : (st.threads.set tid
            (Thread.caller (.gotBus k))).length = st.threads.length := by
          simp
        rw [← h1]
        exact List.getElem?_concat_length _ _
      · exact (List.getElem?_append_left (by
            rw [List.length_set]; exact length_lt_of_getElem? ht)).trans
          (List.getElem?_set_self (length_lt_of_getElem? ht))
  | addReceiver tid k gi0 g0 ht hl hg0 hgk0 => simp at hlt
  | releaseLock tid k rid ht hl => simp at hlt
  | recvMsg tid k rid gi0 g0 v rest ht hg0 hgk0 hq0 => simp at hlt
  | workOk tid k v ht hw => simp at hlt
  | workPanic tid k ht hw => simp at hlt
  | execAcquire tid k v ht hl => simp at hlt
  | publish tid k v gi0 g0 ht hl hg0 hgk0 => simp at hlt
  | publishMissing tid k v ht hl hk => simp at hlt

/-- Once a group's delivery pass has completed, its (unique) execution
thread is in its final phase. -/
theorem execs_done_of_broadcastDone {K V : Type} {work : K → Option V}
    {st : SysState K V} (hinv : Inv work st) {gi : Nat} {k : K} {b : Bus V}
    (hg : st.groups[gi]? = some (k, b)) (hdone : b.broadcastDone = true) :
    ∀ (i : Nat) (p : ExecPhase K V), st.threads[i]? = some (.exec p) →
      p.key = k → p = .finishedE k := by
  intro i p hp hk
  obtain ⟨j, hj⟩ := hinv.doneFin gi (k, b) hg hdone
  have hij : i = j := hinv.execUniq i j p (.finishedE k) hp hj hk
  subst hij
  rw [hp] at hj
  have h0 := Option.some_inj.mp hj
  injection h0

/-- If `work k` panics, key `k`'s group never carries a message and its
delivery pass never runs, and no caller for `k` ever returns. -/
theorem no_delivery_of_work_none {K V : Type} {work : K → Option V}
    {st : SysState K V} (hinv : Inv work st) {k : K}
    (hw : work k = none) :
    (∀ (gi : Nat) (g : K × Bus V), st.groups[gi]? = some g → g.1 = k →
      g.2.queue = [] ∧ g.2.broadcastDone = false) ∧
    (∀ (i : Nat) (v : V),
      st.threads[i]? ≠ some (.caller (.finished k v))) := by
  constructor
  · intro gi g hg hk
    constructor
    · cases hq : g.2.queue with
      | nil => rfl
      | cons v rest =>
          have hmem : v ∈ g.2.queue := by
            rw [hq]
            exact List.mem_cons_self v rest
          have h0 := hinv.queueWork gi g hg v hmem
          rw [hk, hw] at h0
          exact absurd h0 (by simp)
    · cases hd : g.2.broadcastDone with
      | false => rfl
      | true =>
          obtain ⟨j, hj⟩ := hinv.doneFin gi g hg hd
          obtain ⟨v, hv⟩ := hinv.finEWork j g.1 hj
          rw [hk, hw] at hv
          exact absurd hv (by simp)
  · intro i v hfin
    have h0 := hinv.finWork i k v hfin
    rw [hw] at h0
    exact absurd h0 (by simp)

/-- One-step preservation: once a group's delivery pass has completed and
its channel has been drained, the group stays completed-and-empty, every
execution for its key stays finished, and a caller blocked in `recv` on
that key stays blocked. -/
theorem late_joiner_frozen_step {K V : Type} {work : K → Option V}
    {stA stB : SysState K V} (hinvA : Inv work stA)
    (hstep : Step work stA stB) {gi i0 rid : Nat} {k : K} {b : Bus V}
    (hg : stA.groups[gi]? = some (k, b))
    (hdone : b.broadcastDone = true) (hq : b.queue = [])
    (hexecs : ∀ (i : Nat) (p : ExecPhase K V),
      stA.threads[i]? = some (.exec p) → p.key = k → p = .finishedE k)
    (hw : stA.threads[i0]? = some (.caller (.waiting k rid))) :
    (∃ b' : Bus V, stB.groups[gi]? = some (k, b') ∧
      b'.broadcastDone = true ∧ b'.queue = []) ∧
    (∀ (i : Nat) (p : ExecPhase K V),
      stB.threads[i]? = some (.exec p) → p.key = k → p = .finishedE k) ∧
    stB.threads[i0]? = some (.caller (.waiting k rid)) := by
  cases hstep with
  | acquire tid k0 ht hl =>
      have hne : tid ≠ i0 := by
        intro he
        subst he
        rw [ht] at hw
        simp at hw
      refine ⟨⟨b, hg, hdone, hq⟩, ?_, (List.getElem?_set_ne hne).trans hw⟩
      intro i p hp hk1
      rcases getElem?_set_cases hp with ⟨rfl, heq, _⟩ | ⟨_, hp⟩
      · exact absurd heq (by simp)
      · exact hexecs i p hp hk1
  | entryExisting tid k0 ht hl hk0 =>
      have hne : tid ≠ i0 := by
        intro he
        subst he
        rw [ht] at hw
        simp at hw
      refine ⟨⟨b, hg, hdone, hq⟩, ?_, (List.getElem?_set_ne hne).trans hw⟩
      intro i p hp hk1
      rcases getElem?_set_cases hp with ⟨rfl, heq, _⟩ | ⟨_, hp⟩
      · exact absurd heq (by simp)
      · exact hexecs i p hp hk1
  | entryInsert tid k0 ht hl hk0 =>
      have hne : tid ≠ i0 := by
        intro he
        subst he
        rw [ht] at hw
        simp at hw
      refine ⟨⟨b,
        (List.getElem?_append_left (length_lt_of_getElem? hg)).trans hg,
        hdone, hq⟩, ?_, ?_⟩
      · intro i p hp hk1
        rcases getElem?_concat_cases hp with hp | ⟨_, heq⟩
        · rcases getElem?_set_cases hp with ⟨rfl, heq, _⟩ | ⟨_, hp⟩
          · exact absurd heq (by simp)
          · exact hexecs i p hp hk1
        · injection heq with h2
          subst h2
          have hk1' : k0 = k := hk1
          subst hk1'
          exact absurd (key_mem_of_getElem? hg) hk0
      · exact (List.getElem?_append_left (by
            rw [List.length_set]; exact length_lt_of_getElem? hw)).trans
          ((List.getElem?_set_ne hne).trans hw)
  | addReceiver tid k0 gi0 g0 ht hl hg0 hgk0 =>
      have hne : tid ≠ i0 := by
        intro he
        subst he
        rw [ht] at hw
        simp at hw
      refine ⟨?_, ?_, (List.getElem?_set_ne hne).trans hw⟩
      · by_cases hgi : gi0 = gi
        · subst hgi
          rw [hg] at hg0
          cases Option.some_inj.mp hg0
          exact ⟨((k, b).2.add_receiver).1,
            List.getElem?_set_self (length_lt_of_getElem? hg), hdone, hq⟩
        · exact ⟨b, (List.getElem?_set_ne hgi).trans hg, hdone, hq⟩
      · intro i p hp hk1
        rcases getElem?_set_cases hp with ⟨rfl, heq, _⟩ | ⟨_, hp⟩
        · exact absurd heq (by simp)
        · exact hexecs i p hp hk1
  | releaseLock tid k0 rid0 ht hl =>
      have hne : tid ≠ i0 := by
        intro he
        subst he
        rw [ht] at hw
        simp at hw
      refine ⟨⟨b, hg, hdone, hq⟩, ?_, (List.getElem?_set_ne hne).trans hw⟩
      intro i p hp hk1
      rcases getElem?_set_cases hp with ⟨rfl, heq, _⟩ | ⟨_, hp⟩
      · exact absurd heq (by simp)
      · exact hexecs i p hp hk1
  | recvMsg tid k0 rid0 gi0 g0 v rest ht hg0 hgk0 hq0 =>
      by_cases hgi : gi0 = gi
      · subst hgi
        rw [hg] at hg0
        cases Option.some_inj.mp hg0
        have hq0' : b.queue = v :: rest := hq0
        rw [hq] at hq0'
        exact absurd hq0' (by simp)
      · have hne : tid ≠ i0 := by
          intro he
          subst he
          rw [ht] at hw
          have h0 := Option.some_inj.mp hw
          injection h0 with h1
          injection h1 with h2 h3
          apply hgi
          refine nodup_key_index_unique hinvA.nodup hg0 hg ?_
          rw [hgk0, h2]
        refine ⟨⟨b, (List.getElem?_set_ne hgi).trans hg, hdone, hq⟩, ?_,
          (List.getElem?_set_ne hne).trans hw⟩
        intro i p hp hk1
        rcases getElem?_set_cases hp with ⟨rfl, heq, _⟩ | ⟨_, hp⟩
        · exact absurd heq (by simp)
        · exact hexecs i p hp hk1
  | workOk tid k0 v ht hwork =>
      have hne : tid ≠ i0 := by
        intro he
        subst he
        rw [ht] at hw
        simp at hw
      refine ⟨⟨b, hg, hdone, hq⟩, ?_, (List.getElem?_set_ne hne).trans hw⟩
      intro i p hp hk1
      rcases getElem?_set_cases hp with ⟨rfl, heq, _⟩ | ⟨_, hp⟩
      · injection heq with h2
        subst h2
        have hk1' : k0 = k := hk1
        have h0 := hexecs tid (.running k0) ht hk1'
        exact absurd h0 (by simp)
      · exact hexecs i p hp hk1
  | workPanic tid k0 ht hwork =>
      have hne : tid ≠ i0 := by
        intro he
        subst he
        rw [ht] at hw
        simp at hw
      refine ⟨⟨b, hg, hdone, hq⟩, ?_, (List.getElem?_set_ne hne).trans hw⟩
      intro i p hp hk1
      rcases getElem?_set_cases hp with ⟨rfl, heq, _⟩ | ⟨_, hp⟩
      · injection heq with h2
        subst h2
        have hk1' : k0 = k := hk1
        have h0 := hexecs tid (.running k0) ht hk1'
        exact absurd h0 (by simp)
      · exact hexecs i p hp hk1
  | execAcquire tid k0 v ht hl =>
      have hne : tid ≠ i0 := by
        intro he
        subst he
        rw [ht] at hw
        simp at hw
      refine ⟨⟨b, hg, hdone, hq⟩, ?_, (List.getElem?_set_ne hne).trans hw⟩
      intro i p hp hk1
      rcases getElem?_set_cases hp with ⟨rfl, heq, _⟩ | ⟨_, hp⟩
      · injection heq with h2
        subst h2
        have hk1' : k0 = k := hk1
        have h0 := hexecs tid (.awaitLock k0 v) ht hk1'
        exact absurd h0 (by simp)
      · exact hexecs i p hp hk1
  | publish tid k0 v gi0 g0 ht hl hg0 hgk0 =>
      have hk0k : k0 ≠ k := by
        intro he
        have h0 := hexecs tid (.publishing k0 v) ht he
        exact absurd h0 (by simp)
      have hgi : gi0 ≠ gi := by
        intro he
        subst he
        rw [hg] at hg0
        cases Option.some_inj.mp hg0
        have h0 : k = k0 := hgk0
        exact hk0k h0.symm
      have hne : tid ≠ i0 := by
        intro he
        subst he
        rw [ht] at hw
        simp at hw
      refine ⟨⟨b, (List.getElem?_set_ne hgi).trans hg, hdone, hq⟩, ?_,
        (List.getElem?_set_ne hne).trans hw⟩
      intro i p hp hk1
      rcases getElem?_set_cases hp with ⟨rfl, heq, _⟩ | ⟨_, hp⟩
      · injection heq with h2
        subst h2
        have hk1' : k0 = k := hk1
        exact absurd hk1' hk0k
      · exact hexecs i p hp hk1
  | publishMissing tid k0 v ht hl hk0 =>
      exact absurd (hinvA.execMem tid (.publishing k0 v) ht) hk0

/-- Transitive closure of `late_joiner_frozen_step`. -/
theorem late_joiner_frozen {K V : Type} {work : K → Option V}
    {st st' : SysState K V} (hinv : Inv work st)
    (hrt : Relation.ReflTransGen (Step work) st st')
    {gi i0 rid : Nat} {k : K} {b : Bus V}
    (hg : st.groups[gi]? = some (k, b))
    (hdone : b.broadcastDone = true) (hq : b.queue = [])
    (hw : st.threads[i0]? = some (.caller (.waiting k rid))) :
    (∃ b' : Bus V, st'.groups[gi]? = some (k, b') ∧
      b'.broadcastDone = true ∧ b'.queue = []) ∧
    (∀ (i : Nat) (p : ExecPhase K V),
      st'.threads[i]? = some (.exec p) → p.key = k → p = .finishedE k) ∧
    st'.threads[i0]? = some (.caller (.waiting k rid)) := by
  have hexecs := execs_done_of_broadcastDone hinv hg hdone
  induction hrt with
  | refl => exact ⟨⟨b, hg, hdone, hq⟩, hexecs, hw⟩
  | tail hab hstep ih =>
      obtain ⟨⟨b1, hg1, hdone1, hq1⟩, hexecs1, hw1⟩ := ih
      exact late_joiner_frozen_step (inv_rtg hinv hab) hstep hg1 hdone1 hq1
        hexecs1 hw1

/-! ### Concrete executions

`work1` is a successful work closure on `Nat`; `panicWork` always panics.
The states below are snapshots of concrete interleavings used to witness
the theorems and to exhibit counterexamples. -/

def work1 : Nat → Option Nat := fun n => some (n + 1)

def panicWork : Nat → Option Nat := fun _ => none

/-- One caller for key 0, whose spawned execution has panicked: the caller
is blocked in `recv`, the group's channel is empty, no delivery pass ran. -/
def c5state : SysState Nat Nat :=
  ⟨[(0, ⟨[], [1], false⟩)], none,
   [.caller (.waiting 0 0), .exec (.panickedWork 0)]⟩

theorem reach_c5state : Reachable panicWork [0] c5state := by
  refine Relation.ReflTransGen.head (Step.acquire _ 0 0 rfl rfl) ?_
  refine Relation.ReflTransGen.head
    (Step.entryInsert _ 0 0 rfl rfl (by decide)) ?_
  refine Relation.ReflTransGen.head
    (Step.addReceiver _ 0 0 0 (0, Bus.new Nat) rfl rfl rfl rfl) ?_
  refine Relation.ReflTransGen.head (Step.releaseLock _ 0 0 0 rfl rfl) ?_
  refine Relation.ReflTransGen.head (Step.workPanic _ 1 0 rfl rfl) ?_
  exact Relation.ReflTransGen.refl

/-- Two callers for key 5.  The first registered, the execution ran and the
delivery pass completed (one copy of `6` is in the channel for the first
caller, which is still blocked in `recv`); the second caller has not yet
entered the registry lock. -/
def c6mid : SysState Nat Nat :=
  ⟨[(5, ⟨[6], [1], true⟩)], none,
   [.caller (.waiting 5 0), .caller (.start 5), .exec (.finishedE 5)]⟩

/-- Continuation of `c6mid`: the late second caller has registered its
consumer handle (after the delivery pass completed) and still holds the
registry lock. -/
def c6reg : SysState Nat Nat :=
  ⟨[(5, ⟨[6], [1, 1], true⟩)], some 1,
   [.caller (.waiting 5 0), .caller (.registered 5 1), .exec (.finishedE 5)]⟩

/-- Continuation of `c6reg`: the late caller's `recv` stole the single
published copy; the first caller is still blocked and will never be woken. -/
def c6end : SysState Nat Nat :=
  ⟨[(5, ⟨[], [1, 0], true⟩)], none,
   [.caller (.waiting 5 0), .caller (.finished 5 6), .exec (.finishedE 5)]⟩

theorem reach_c6mid : Reachable work1 [5, 5] c6mid := by
  refine Relation.ReflTransGen.head (Step.acquire _ 0 5 rfl rfl) ?_
  refine Relation.ReflTransGen.head
    (Step.entryInsert _ 0 5 rfl rfl (by decide)) ?_
  refine Relation.ReflTransGen.head
    (Step.addReceiver _ 0 5 0 (5, Bus.new Nat) rfl rfl rfl rfl) ?_
  refine Relation.ReflTransGen.head (Step.releaseLock _ 0 5 0 rfl rfl) ?_
  refine Relation.ReflTransGen.head (Step.workOk _ 2 5 6 rfl rfl) ?_
  refine Relation.ReflTransGen.head (Step.execAcquire _ 2 5 6 rfl rfl) ?_
  refine Relation.ReflTransGen.head
    (Step.publish _ 2 5 6 0 (5, ⟨[], [1], false⟩) rfl rfl rfl rfl) ?_
  exact Relation.ReflTransGen.refl

theorem rtg_c6mid_reg : Relation.ReflTransGen (Step work1) c6mid c6reg := by
  refine Relation.ReflTransGen.head (Step.acquire _ 1 5 rfl rfl) ?_
  refine Relation.ReflTransGen.head
    (Step.entryExisting _ 1 5 rfl rfl (by decide)) ?_
  refine Relation.ReflTransGen.head
    (Step.addReceiver _ 1 5 0 (5, ⟨[6], [1], true⟩) rfl rfl rfl rfl) ?_
  exact Relation.ReflTransGen.refl

theorem rtg_c6reg_end : Relation.ReflTransGen (Step work1) c6reg c6end := by
  refine Relation.ReflTransGen.head (Step.releaseLock _ 1 5 1 rfl rfl) ?_
  refine Relation.ReflTransGen.head
    (Step.recvMsg _ 1 5 1 0 (5, ⟨[6], [1, 1], true⟩) 6 [] rfl rfl rfl rfl) ?_
  exact Relation.ReflTransGen.refl

theorem reach_c6reg : Reachable work1 [5, 5] c6reg :=
  Relation.ReflTransGen.trans reach_c6mid rtg_c6mid_reg

theorem reach_c6end : Reachable work1 [5, 5] c6end :=
  Relation.ReflTransGen.trans reach_c6reg rtg_c6reg_end

/-! ### The `#[mula]` attribute macro
(src/mula_proc_macro/src/lib.rs, lines 84-96)

The macro renames the annotated function and emits a wrapper of the same
name:

```
static STATIC_MULA_FOR_F: OnceCell<Arc<Mula<..>>> = OnceCell::new();
fn f(input: In) -> Out {
    let m = STATIC_MULA_FOR_F.get_or_init(|| Mula::new(&f_mula_fn));
    let result = Mula::subscribe_to(m.clone(), input.clone());
    result
}
```

`WrapperWorld` models the `OnceCell` (holding the id of the coordinator it
was initialised with) together with a count of `Mula::new` calls the
wrapper has performed; `subsc` gives the result of
`Mula::subscribe_to(m, input)` for coordinator id `m`. -/

structure WrapperWorld : Type where
  cell : Option Nat
  created : Nat
deriving DecidableEq, Repr

def WrapperWorld.start : WrapperWorld := ⟨none, 0⟩

/-- One invocation of the generated wrapper: `get_or_init` either reuses
the coordinator already in the cell or constructs exactly one new one
(first-call-wins), then the call is forwarded as
`Mula::subscribe_to(m.clone(), input.clone())` and its result returned.
The middle component records the single `subscribe_to` call performed:
(coordinator id, forwarded argument). -/
def wrapperCall {K V : Type} (subsc : Nat → K → V) (w : WrapperWorld)
    (input : K) : WrapperWorld × (Nat × K) × V :=
  match w.cell with
  | some m => (w, (m, input), subsc m input)
  | none => (⟨some w.created, w.created + 1⟩, (w.created, input),
      subsc w.created input)

/-- A sequence of invocations of the generated wrapper, returning the final
world and the list of `subscribe_to` calls (with their results). -/
def runWrapper {K V : Type} (subsc : Nat → K → V) :
    WrapperWorld → List K → WrapperWorld × List ((Nat × K) × V)
  | w, [] => (w, [])
  | w, i :: is =>
      let r := wrapperCall subsc w i
      let rest := runWrapper subsc r.1 is
      (rest.1, r.2 :: rest.2)

theorem runWrapper_inited {K V : Type} (subsc : Nat → K → V)
    (inputs : List K) :
    runWrapper subsc (⟨some 0, 1⟩ : WrapperWorld) inputs =
      (⟨some 0, 1⟩, inputs.map (fun i => ((0, i), subsc 0 i))) := by
  induction inputs with
  | nil => rfl
  | cons i is ih => simp [runWrapper, wrapperCall, ih]

/-! ### The claims -/

/-- Claim C1: for every key K, at most one execution of the work closure is ever
started for K.  In every reachable state: (i) there is at most one
execution thread per key (threads are never removed, so this bounds the
number ever started); (ii) every execution's key has a group in the
registry; (iii) the only step that spawns an execution does so for a key
absent from the registry, inserts the new group in the same atomic
lock-protected step (so the group is in the registry before the lock is
released), and keeps holding the lock; (iv) every caller that returned got
the single execution's result, `work` of its own key. -/
theorem claim_C1 {K V : Type} (work : K → Option V) (reqs : List K)
    (st : SysState K V) (h : Reachable work reqs st) :
    (∀ (i j : Nat) (p q : ExecPhase K V), st.threads[i]? = some (.exec p) →
      st.threads[j]? = some (.exec q) → p.key = q.key → i = j) ∧
    (∀ (i : Nat) (p : ExecPhase K V), st.threads[i]? = some (.exec p) →
      p.key ∈ st.keys) ∧
    (∀ st' : SysState K V, Step work st st' →
      st.threads.length < st'.threads.length →
      ∃ (tid : Nat) (k : K), st.lock = some tid ∧ st'.lock = some tid ∧
        k ∉ st.keys ∧ k ∈ st'.keys ∧
        st'.threads[st.threads.length]? = some (.exec (.running k))) ∧
    (∀ (i : Nat) (k : K) (v : V),
      st.threads[i]? = some (.caller (.finished k v)) → work k = some v) := by
  have hinv := reachable_inv h
  refine ⟨hinv.execUniq, hinv.execMem, ?_, hinv.finWork⟩
  intro st' hstep hlt
  obtain ⟨tid, k, h1, h2, h3, h4, h5, _⟩ := step_spawn_char hstep hlt
  exact ⟨tid, k, h1, h2, h3, h4, h5⟩

theorem claim_C1_witness :
    c6end.threads[2]? = some (.exec (.finishedE 5)) ∧
    (ExecPhase.finishedE (K := Nat) (V := Nat) 5).key ∈ c6end.keys :=
  ⟨rfl, (claim_C1 work1 [5, 5] c6end reach_c6end).2.1 2
    (.finishedE 5) rfl⟩

/-- Claim C2: a delivery pass emits exactly one send per receiver handle whose
strong count is positive at the instant of the check — `broadcastChecked`
(the loop with `send` fallibility explicit) succeeds, appending exactly
`liveCount` clones of the message, dead handles contribute nothing, and
`liveCount` is the number of handles with strong count `> 0`. -/
theorem claim_C2 {V : Type} (b : Bus V) (msg : V) :
    b.broadcastChecked msg =
      some (b.queue ++ List.replicate b.liveCount msg) ∧
    (b.broadcast msg).queue = b.queue ++ List.replicate b.liveCount msg ∧
    b.liveCount = (b.weak_receivers.filter (fun r => 0 < r)).length := by
  refine ⟨?_, broadcast_queue_eq b msg, rfl⟩
  unfold Bus.broadcastChecked
  rw [broadcastLoop_pos msg b.connectedCount
    (by unfold Bus.connectedCount; omega) b.weak_receivers b.queue]
  rfl

/-- Claim C3: every caller of `subscribe_to` that returns receives exactly the
value `work` produces for its own key, never one for a different key. -/
theorem claim_C3 {K V : Type} (work : K → Option V) (reqs : List K)
    (st : SysState K V) (h : Reachable work reqs st) (i : Nat) (k : K)
    (v : V) (hfin : st.threads[i]? = some (.caller (.finished k v))) :
    work k = some v :=
  (reachable_inv h).finWork i k v hfin

theorem claim_C3_witness : work1 5 = some 6 :=
  claim_C3 work1 [5, 5] c6end reach_c6end 1 5 6 rfl

/-- Claim C4: the registry lock is released strictly before a caller blocks on
its consumer handle: in every reachable state, a thread blocked in `recv`
does not hold the registry mutex. -/
theorem claim_C4 {K V : Type} (work : K → Option V) (reqs : List K)
    (st : SysState K V) (h : Reachable work reqs st) (i rid : Nat) (k : K)
    (hwait : st.threads[i]? = some (.caller (.waiting k rid))) :
    st.lock ≠ some i := by
  intro hlock
  obtain ⟨t, ht, hh⟩ := (reachable_inv h).lockInv i hlock
  rw [hwait] at ht
  cases Option.some_inj.mp ht
  simp [Thread.holdsLock] at hh

theorem claim_C4_witness : c6reg.lock ≠ some 0 :=
  claim_C4 work1 [5, 5] c6reg reach_c6reg 0 0 5 rfl

/-- Claim C7: when the background execution re-acquires the registry lock to
publish, `map.get_mut(&key).unwrap()` never panics: no reachable state
contains a thread that failed this lookup. -/
theorem claim_C7 {K V : Type} (work : K → Option V) (reqs : List K)
    (st : SysState K V) (h : Reachable work reqs st) (i : Nat) (k : K) :
    st.threads[i]? ≠ some (.exec (.lookupFailed k)) :=
  (reachable_inv h).noFail i k

theorem claim_C7_witness :
    c6end.threads[2]? ≠ some (.exec (.lookupFailed 5)) :=
  claim_C7 work1 [5, 5] c6end reach_c6end 2 5

/-- Claim C8: the registry only grows: along any execution, every key present
stays present and the group at each index keeps its key — no operation of
`Mula` ever removes an entry from the registry map. -/
theorem claim_C8 {K V : Type} (work : K → Option V)
    (st st' : SysState K V)
    (h : Relation.ReflTransGen (Step work) st st') :
    (∀ a ∈ st.keys, a ∈ st'.keys) ∧
    (∀ (gi : Nat) (g : K × Bus V), st.groups[gi]? = some g →
      ∃ b : Bus V, st'.groups[gi]? = some (g.1, b)) :=
  ⟨rtg_keys_mono h, fun gi g hg => rtg_group_persist h gi g hg⟩

theorem claim_C8_witness :
    (5 ∈ c6end.keys) ∧
    (∃ b : Bus Nat, c6end.groups[0]? = some (5, b)) :=
  ⟨(claim_C8 work1 c6mid c6end
      (Relation.ReflTransGen.trans rtg_c6mid_reg rtg_c6reg_end)).1 5
      (by decide),
   (claim_C8 work1 c6mid c6end
      (Relation.ReflTransGen.trans rtg_c6mid_reg rtg_c6reg_end)).2 0
      (5, ⟨[6], [1], true⟩) rfl⟩

/-- Claim C9: the generated wrapper constructs exactly one coordinator
(first call initialises the `OnceCell`, every later call reuses it) and
forwards every invocation, with a clone of its single argument, through
the coordinator's blocking `subscribe_to`, returning its result. -/
theorem claim_C9 {K V : Type} (subsc : Nat → K → V) (inputs : List K)
    (hne : inputs ≠ []) :
    (runWrapper subsc WrapperWorld.start inputs).1 =
      (⟨some 0, 1⟩ : WrapperWorld) ∧
    (runWrapper subsc WrapperWorld.start inputs).2 =
      inputs.map (fun i => ((0, i), subsc 0 i)) := by
  cases inputs with
  | nil => exact absurd rfl hne
  | cons i is =>
      constructor
      · show (runWrapper subsc WrapperWorld.start (i :: is)).1 = _
        simp [runWrapper, wrapperCall, WrapperWorld.start,
          runWrapper_inited]
      · show (runWrapper subsc WrapperWorld.start (i :: is)).2 = _
        simp [runWrapper, wrapperCall, WrapperWorld.start,
          runWrapper_inited]

theorem claim_C9_witness :
    (runWrapper (fun _ n => n + 1) WrapperWorld.start [3, 4, 3]).2 =
      [((0, 3), 4), ((0, 4), 5), ((0, 3), 4)] := by
  have h := claim_C9 (fun (_ : Nat) (n : Nat) => n + 1) [3, 4, 3]
    (by decide)
  rw [h.2]
  rfl

/-- Claim C10: the method `add_receiver` appends exactly one weak reference (of strong
count 1) and returns the handle; across any step, a group's
`weak_receivers` never loses an entry (an entry can only be kept, or drop
to strong count 0 when its owner finishes), and any growth is exactly one
appended entry performed while the registry mutex is held. -/
theorem claim_C10 {K V : Type} (work : K → Option V) :
    (∀ b : Bus V,
      (b.add_receiver).1.weak_receivers = b.weak_receivers ++ [1] ∧
      (b.add_receiver).1.weak_receivers[(b.add_receiver).2]? = some 1 ∧
      (b.add_receiver).1.queue = b.queue) ∧
    (∀ (st st' : SysState K V), Step work st st' →
      ∀ (gi : Nat) (g g' : K × Bus V), st.groups[gi]? = some g →
        st'.groups[gi]? = some g' →
        (g.2.weak_receivers.length ≤ g'.2.weak_receivers.length ∧
         ∀ (j r : Nat), g.2.weak_receivers[j]? = some r →
           g'.2.weak_receivers[j]? = some r ∨
             g'.2.weak_receivers[j]? = some 0) ∧
        (g.2.weak_receivers.length < g'.2.weak_receivers.length →
          g'.2.weak_receivers = g.2.weak_receivers ++ [1] ∧
          ∃ tid : Nat, st.lock = some tid ∧ st'.lock = some tid)) := by
  constructor
  · intro b
    exact ⟨rfl, List.getElem?_concat_length _ _, rfl⟩
  · intro st st' hstep gi g g' hg hg'
    refine ⟨?_, ?_⟩
    · obtain ⟨_, h1, h2⟩ := step_receivers_preserve hstep gi g g' hg hg'
      exact ⟨h1, h2⟩
    · intro hlt
      exact step_receivers_growth hstep gi g g' hg hg' hlt

/-- The state from which the late caller's `add_receiver` step runs. -/
def c6got : SysState Nat Nat :=
  ⟨[(5, ⟨[6], [1], true⟩)], some 1,
   [.caller (.waiting 5 0), .caller (.gotBus 5), .exec (.finishedE 5)]⟩

theorem claim_C10_witness :
    ((Bus.new Nat).add_receiver).1.weak_receivers = ([] : List Nat) ++ [1] ∧
    ((⟨[6], [1, 1], true⟩ : Bus Nat).weak_receivers = [1] ++ [1] ∧
      ∃ tid : Nat, c6got.lock = some tid ∧ c6reg.lock = some tid) :=
  ⟨((claim_C10 (K := Nat) work1).1 (Bus.new Nat)).1,
   ((claim_C10 work1).2 c6got c6reg
      (Step.addReceiver _ 1 5 0 (5, ⟨[6], [1], true⟩) rfl rfl rfl rfl)
      0 (5, ⟨[6], [1], true⟩) (5, ⟨[6], [1, 1], true⟩) rfl rfl).2
      (by decide)⟩

/-- Claim C5 (counterexample): the claim says that when `work` fails the
delivery pass still runs and every registered live waiter observes a
propagated failure indication instead of blocking forever.  In the code,
the spawned thread unwinds before ever publishing and the `Bus` (holding
the channel sender) stays in the registry, so nothing is ever delivered:
from the concrete reachable state `c5state` (caller 0 registered and
blocked in `recv`, execution panicked), in every subsequent state no
group's delivery pass has run and caller 0 has not returned. -/
theorem claim_C5_counterexample :
    Reachable panicWork [0] c5state ∧
    c5state.threads[0]? = some (.caller (.waiting 0 0)) ∧
    c5state.threads[1]? = some (.exec (.panickedWork 0)) ∧
    ∀ st' : SysState Nat Nat,
      Relation.ReflTransGen (Step panicWork) c5state st' →
      (∀ (gi : Nat) (g : Nat × Bus Nat), st'.groups[gi]? = some g →
        g.2.broadcastDone = false) ∧
      (∀ v : Nat, st'.threads[0]? ≠ some (.caller (.finished 0 v))) := by
  refine ⟨reach_c5state, rfl, rfl, ?_⟩
  intro st' hrt
  have hinv' : Inv panicWork st' :=
    inv_rtg (reachable_inv reach_c5state) hrt
  constructor
  · intro gi g hg
    exact ((no_delivery_of_work_none hinv' (k := g.1) rfl).1 gi g hg rfl).2
  · intro v
    exact (no_delivery_of_work_none hinv' (k := (0 : Nat)) rfl).2 0 v

/-- Claim C5 (amended): if the work closure for key K panics, the delivery pass
for K's group never runs and no value is ever in its channel, so every
caller for K blocks forever in `recv` (no caller for K ever returns); no
failure indication is delivered. -/
theorem claim_C5_amended {K V : Type} (work : K → Option V) (reqs : List K)
    (st : SysState K V) (h : Reachable work reqs st) (k : K)
    (hw : work k = none) :
    (∀ (gi : Nat) (g : K × Bus V), st.groups[gi]? = some g → g.1 = k →
      g.2.queue = [] ∧ g.2.broadcastDone = false) ∧
    (∀ (i : Nat) (v : V),
      st.threads[i]? ≠ some (.caller (.finished k v))) :=
  no_delivery_of_work_none (reachable_inv h) hw

theorem claim_C5_amended_witness :
    (⟨[], [1], false⟩ : Bus Nat).queue = [] ∧
    (⟨[], [1], false⟩ : Bus Nat).broadcastDone = false :=
  (claim_C5_amended panicWork [0] c5state reach_c5state 0 rfl).1 0
    (0, ⟨[], [1], false⟩) rfl rfl

/-- Claim C6 (counterexample): the claim says a consumer handle minted strictly
after the delivery pass for its group has completed never receives a
value.  In `c6mid` the delivery pass for key 5 is complete
(`broadcastDone = true`, one copy of `6` still queued for the first,
still-blocked, waiter); the second caller then registers its handle and
its `recv` steals the queued copy: it finishes with the value `6`, while
the first waiter is left blocked. -/
theorem claim_C6_counterexample :
    Reachable work1 [5, 5] c6mid ∧
    c6mid.groups[0]? = some (5, ⟨[6], [1], true⟩) ∧
    c6mid.threads[1]? = some (.caller (.start 5)) ∧
    Relation.ReflTransGen (Step work1) c6mid c6end ∧
    c6end.threads[1]? = some (.caller (.finished 5 6)) ∧
    c6end.threads[0]? = some (.caller (.waiting 5 0)) :=
  ⟨reach_c6mid, rfl, rfl,
    Relation.ReflTransGen.trans rtg_c6mid_reg rtg_c6reg_end, rfl, rfl⟩

/-- Claim C6 (amended): after the delivery pass for K's group has completed, no
new execution is ever started for K (every execution thread for K stays in
its finished phase, so no further value is ever published) and the group
stays in the registry; a caller blocked in `recv` on K once the group's
channel is empty blocks forever.  (A handle minted after the pass may
still receive a value while undrained copies remain in the channel —
witnessed by the counterexample — stealing it from an earlier waiter.) -/
theorem claim_C6_amended {K V : Type} (work : K → Option V) (reqs : List K)
    (st st' : SysState K V) (h : Reachable work reqs st)
    (hrt : Relation.ReflTransGen (Step work) st st')
    (gi i0 rid : Nat) (k : K) (b : Bus V)
    (hg : st.groups[gi]? = some (k, b))
    (hdone : b.broadcastDone = true) (hq : b.queue = [])
    (hwait : st.threads[i0]? = some (.caller (.waiting k rid))) :
    (∃ b' : Bus V, st'.groups[gi]? = some (k, b') ∧
      b'.broadcastDone = true ∧ b'.queue = []) ∧
    (∀ (i : Nat) (p : ExecPhase K V), st'.threads[i]? = some (.exec p) →
      p.key = k → p = .finishedE k) ∧
    st'.threads[i0]? = some (.caller (.waiting k rid)) :=
  late_joiner_frozen (reachable_inv h) hrt hg hdone hq hwait

theorem claim_C6_amended_witness :
    c6end.threads[0]? = some (.caller (.waiting 5 0)) :=
  (claim_C6_amended work1 [5, 5] c6end c6end reach_c6end
    Relation.ReflTransGen.refl 0 0 0 5 ⟨[], [1, 0], true⟩ rfl rfl rfl
    rfl).2.2

end MulaVerify
